import Mathlib

/-!
# DeOSS gateway: retrieval pipeline and track-file store

A shallow embedding of `node/retrieve.go` (`Node.retrieve_file`) and of the
track-file operations of `node/node.go` (`Node.WriteTrackFile`,
`Node.ParseTrackFile`).

Modelling conventions.

* The file system is a finite-support map from path strings to file contents.
  Only regular files are modelled; `os.Stat` succeeds exactly on the paths that
  hold a file.  An open `*os.File` is represented by the path it was created
  at, and `f.Write` appends to the file at that path.
* `filepath.Join dir name` is `dir ++ "/" ++ name`, which is what the library
  computes for separator-free names such as hex content hashes.
* The collaborators that live outside the repository (chain client, peer
  node, erasure codec, cipher, operating-system failures) are fields of an
  environment record `Env`.  Every one of them receives the current machine
  state, so its answer may change from one call to the next.  A collaborator
  that writes a file (`ReadDataAction`, `RSRestore`) changes only the path it is
  given.
* Side effects are recorded in a trace of `Event`s, in program order.
  `Logdown` calls and the context/cancel bookkeeping are not recorded.
* In `retrieve_file` a `Write` on an open handle writes all its bytes: the
  code ignores the results of these calls, and short writes are not modelled
  there.  `WriteTrackFile` checks the result, and its model has the failure.
* Deferred calls are executed at every exit, in last-in first-out order, also
  when the body stops with a run-time panic.
-/

namespace DeOSS

/-! ## Data model -/

abbrev Bytes := List Nat

abbrev Err := String

abbrev FS := String → Option Bytes

/-- The path `filepath.Join(dir, name)` for a separator-free `name`. -/
def Join (dir name : String) : String := dir ++ "/" ++ name

/-- File content after `os.Create` followed by a complete write, or `os.Rename` onto `p`. -/
def fsWrite (fs : FS) (p : String) (b : Bytes) : FS :=
  fun q => if q = p then some b else fs q

/-- Result of `os.Remove(p)`; removing an absent file changes nothing. -/
def fsRemove (fs : FS) (p : String) : FS :=
  fun q => if q = p then none else fs q

/-- Result of `f.Write(b)` on the handle opened at `p`: the bytes are appended. -/
def fsAppend (fs : FS) (p : String) (b : Bytes) : FS :=
  fun q => if q = p then (fs q).map (fun c => c ++ b) else fs q

/-- What an external collaborator leaves at the single path it is given. -/
inductive FileEffect where
  | keep
  | put (b : Bytes)
  | del

def applyEffect (fs : FS) (p : String) : FileEffect → FS
  | .keep => fs
  | .put b => fsWrite fs p b
  | .del => fsRemove fs p

structure FragmentInfo where
  Hash : String
  Miner : String

structure SegmentInfo where
  Hash : String
  FragmentList : List FragmentInfo

structure FileMetadata where
  SegmentList : List SegmentInfo
  FileSize : Nat

structure MinerInfo where
  PeerId : String

structure AddrInfo where
  ID : String
  Addrs : List String

inductive Event where
  | Stat (path : String)
  | MkdirAll (dir : String)
  | Create (path : String)
  | QueryFile (fid : String)
  | QueryMinerItems (miner : String)
  | GetPeer (peerid : String)
  | AddAddrs (id : String)
  | ClearAddrs (id : String)
  | ReadDataAction (id hash path : String)
  | RSRestore (segmentpath : String) (fragmentpaths : List String)
  | ReadFile (path : String)
  | AesCbcDecrypt (cipher : String)
  | Write (path : String) (data : Bytes)
  | Sync (path : String)
  | Close (path : String)
  | Remove (path : String)
  | Rename (src dst : String)
  deriving DecidableEq

/-- The mutable state of one `retrieve_file` activation: the file system, the
effects so far, and the local variables `fmeta` (unset before the metadata
lookup succeeds), `fragmentpaths`, `segmentspath` and `writecount`. -/
structure State where
  fs : FS
  trace : List Event
  fmeta : Option FileMetadata
  fragmentpaths : List String
  segmentspath : List String
  writecount : Nat

def State.log (st : State) (e : Event) : State :=
  { st with trace := st.trace ++ [e] }

def State.setFs (st : State) (fs : FS) : State :=
  { st with fs := fs }

/-- How a function activation ends: `return path, err`, or a run-time panic. -/
inductive Outcome where
  | ret (path : String) (err : Option Err)
  | crash
  deriving DecidableEq

/-- Control after a loop body or a straight-line block: fall through to the
next statement (`next`, also the effect of `continue`), or leave the function. -/
inductive Ctl where
  | next (st : State)
  | stop (out : Outcome) (st : State)

def Ctl.state : Ctl → State
  | .next st => st
  | .stop _ st => st

/-- The collaborators of `retrieve_file` that are not part of the repository,
and the constants of `sconfig` and `core` it refers to. -/
structure Env where
  DataShards : Nat
  ParShards : Nat
  FragmentSize : Nat
  SegmentSize : Nat
  ZeroFileHash_8M : String
  /-- The call `os.Create`: `none` when the file is created (and truncated). -/
  Create : State → String → Option Err
  /-- The call `n.QueryFile(fid, -1)`. -/
  QueryFile : State → String → Except Err FileMetadata
  /-- The call `n.QueryMinerItems(miner, -1)`. -/
  QueryMinerItems : State → String → Except Err MinerInfo
  /-- The function `base58.Encode`. -/
  Encode : String → String
  /-- The call `n.GetPeer(peerid)`. -/
  GetPeer : State → String → Option AddrInfo
  /-- The call `n.ReadDataAction(ctx, id, hash, path)`: what it leaves at `path`, and its error. -/
  ReadDataAction : State → String → String → String → FileEffect × Option Err
  /-- The call `erasure.RSRestore(segmentpath, fragmentpaths)`: what it leaves at `segmentpath`, and its error. -/
  RSRestore : State → String → List String → FileEffect × Option Err
  /-- Failure of `os.ReadFile` on an existing file. -/
  ReadFileErr : State → String → Option Err
  /-- The call `crypte.AesCbcDecrypt(buf, key)`. -/
  AesCbcDecrypt : Bytes → String → Except Err Bytes
  /-- The call `f.Sync()`. -/
  Sync : State → Option Err
  /-- The slice `buffer[:hi]` for a bound `hi` beyond `len(buffer)`: `none` when
  `hi` exceeds the capacity (a run-time panic), otherwise the buffer extended
  to `hi` bytes with what the backing array holds. -/
  Reslice : Bytes → Nat → Option Bytes

/-! ## `retrieve_file` (`node/retrieve.go`) -/

/-- The call `os.Remove(p)`; its error is ignored by every caller. -/
def osRemove (st : State) (p : String) : State :=
  (st.log (.Remove p)).setFs (fsRemove st.fs p)

/-- The call `os.ReadFile(p)`: the content of the file at `p`, or an error. -/
def osReadFile (env : Env) (st : State) (p : String) : Except Err Bytes :=
  match st.fs p with
  | none => .error "no such file or directory"
  | some b =>
    match env.ReadFileErr st p with
    | some err => .error err
    | none => .ok b

/-- Body of `for k, fragment := range segment.FragmentList` (lines 80-117). -/
def fragmentBody (env : Env) (savedir : String) (k : Nat) (fragment : FragmentInfo)
    (st : State) : Ctl :=
  let fragmentpath := Join savedir fragment.Hash
  if k < st.fragmentpaths.length then
    let st := { st with fragmentpaths := st.fragmentpaths.set k fragmentpath }
    if fragment.Hash ≠ env.ZeroFileHash_8M then
      let st := st.log (.QueryMinerItems fragment.Miner)
      match env.QueryMinerItems st fragment.Miner with
      | .error err => .stop (.ret "" (some err)) st
      | .ok miner =>
        let peerid := env.Encode miner.PeerId
        let st := st.log (.GetPeer peerid)
        match env.GetPeer st peerid with
        | none => .next st
        | some addr =>
          let st := st.log (.AddAddrs addr.ID)
          let st := st.log (.ReadDataAction addr.ID fragment.Hash fragmentpath)
          let r := env.ReadDataAction st addr.ID fragment.Hash fragmentpath
          let st := st.setFs (applyEffect st.fs fragmentpath r.1)
          match r.2 with
          | some _ => .next (st.log (.ClearAddrs addr.ID))
          | none => .next (st.log (.ClearAddrs addr.ID))
    else
      let st := st.log (.Stat fragmentpath)
      match st.fs fragmentpath with
      | some _ => .next st
      | none =>
        let st := st.log (.Create fragmentpath)
        match env.Create st fragmentpath with
        | some _ => .next st
        | none =>
          let st := st.setFs (fsWrite st.fs fragmentpath [])
          let zeros : Bytes := List.replicate env.FragmentSize 0
          let st := (st.log (.Write fragmentpath zeros)).setFs (fsAppend st.fs fragmentpath zeros)
          .next (st.log (.Close fragmentpath))
  else
    .stop .crash st

/-- The loop `for k, fragment := range segment.FragmentList`, from index `k`. -/
def fragmentLoop (env : Env) (savedir : String) : Nat → List FragmentInfo → State → Ctl
  | _, [], st => .next st
  | k, fragment :: rest, st =>
    match fragmentBody env savedir k fragment st with
    | .next st => fragmentLoop env savedir (k + 1) rest st
    | .stop out st => .stop out st

/-- Body of `for _, segment := range fmeta.SegmentList` (lines 79-124). -/
def segmentBody (env : Env) (savedir : String) (segment : SegmentInfo) (st : State) : Ctl :=
  match fragmentLoop env savedir 0 segment.FragmentList st with
  | .stop out st => .stop out st
  | .next st =>
    let segmentpath := Join savedir segment.Hash
    let st := st.log (.RSRestore segmentpath st.fragmentpaths)
    let r := env.RSRestore st segmentpath st.fragmentpaths
    let st := st.setFs (applyEffect st.fs segmentpath r.1)
    match r.2 with
    | some err => .stop (.ret "" (some err)) st
    | none => .next { st with segmentspath := st.segmentspath ++ [segmentpath] }

def segmentLoop (env : Env) (savedir : String) : List SegmentInfo → State → Ctl
  | [], st => .next st
  | segment :: rest, st =>
    match segmentBody env savedir segment st with
    | .next st => segmentLoop env savedir rest st
    | .stop out st => .stop out st

/-- The slice bound `fmeta.FileSize.Uint64() - uint64(writecount*sconfig.SegmentSize)`,
computed in 64-bit unsigned arithmetic. -/
def lastBound (env : Env) (fmeta : FileMetadata) (writecount : Nat) : Nat :=
  (fmeta.FileSize % 2 ^ 64 + 2 ^ 64 - (writecount * env.SegmentSize) % 2 ^ 64) % 2 ^ 64

/-- The call `f.Write(b)` on the destination handle. -/
def fWrite (userfile : String) (st : State) (b : Bytes) : State :=
  (st.log (.Write userfile b)).setFs (fsAppend st.fs userfile b)

/-- Lines 143-147 and 149-153: write the whole buffer, or for the last
segment the slice `buffer[:lastBound]`; slicing past the capacity is a panic. -/
def writeSegment (env : Env) (fmeta : FileMetadata) (userfile : String)
    (st : State) (buffer : Bytes) : Ctl :=
  if st.writecount + 1 ≥ fmeta.SegmentList.length then
    if lastBound env fmeta st.writecount ≤ buffer.length then
      .next (fWrite userfile st (buffer.take (lastBound env fmeta st.writecount)))
    else
      match env.Reslice buffer (lastBound env fmeta st.writecount) with
      | some b => .next (fWrite userfile st b)
      | none => .stop .crash st
  else
    .next (fWrite userfile st buffer)

/-- Lines 137-154: decrypt when a cipher is given, then write the (decrypted) buffer. -/
def writeDecoded (env : Env) (cipher : String) (fmeta : FileMetadata) (userfile : String)
    (st : State) (buf : Bytes) : Ctl :=
  if cipher ≠ "" then
    let st := st.log (.AesCbcDecrypt cipher)
    match env.AesCbcDecrypt buf cipher with
    | .error err => .stop (.ret "" (some err)) st
    | .ok buffer => writeSegment env fmeta userfile st buffer
  else
    writeSegment env fmeta userfile st buf

/-- Body of `for i := 0; i < len(segmentspath); i++` (lines 131-156) at `segmentspath[i] = p`;
falling through the body ends with `writecount++`. -/
def writeBody (env : Env) (cipher : String) (fmeta : FileMetadata) (userfile : String)
    (p : String) (st : State) : Ctl :=
  let st := st.log (.ReadFile p)
  match osReadFile env st p with
  | .error err => .stop (.ret "" (some err)) st
  | .ok buf =>
    match writeDecoded env cipher fmeta userfile st buf with
    | .next st => .next { st with writecount := st.writecount + 1 }
    | .stop out st => .stop out st

/-- The loop over `segmentspath[i]`, `i = 0, 1, ...`, given as the list of remaining paths. -/
def writeLoop (env : Env) (cipher : String) (fmeta : FileMetadata) (userfile : String) :
    List String → State → Ctl
  | [], st => .next st
  | p :: rest, st =>
    match writeBody env cipher fmeta userfile p st with
    | .next st => writeLoop env cipher fmeta userfile rest st
    | .stop out st => .stop out st

/-- Lines 130-161: assemble the destination from the reconstructed segments. -/
def assemble (env : Env) (cipher : String) (fmeta : FileMetadata) (userfile : String)
    (st : State) : Ctl :=
  let st := { st with writecount := 0 }
  match writeLoop env cipher fmeta userfile st.segmentspath st with
  | .stop out st => .stop out st
  | .next st =>
    if st.writecount ≠ fmeta.SegmentList.length then
      .stop (.ret "" (some "write failed")) st
    else
      let st := st.log (.Sync userfile)
      .stop (.ret userfile (env.Sync st)) st

/-- Lines 76-161: download and restore every segment, then assemble. -/
def download (env : Env) (savedir cipher : String) (fmeta : FileMetadata) (userfile : String)
    (st : State) : Ctl :=
  let st := { st with segmentspath := [],
                      fragmentpaths := List.replicate (env.DataShards + env.ParShards) "" }
  match segmentLoop env savedir fmeta.SegmentList st with
  | .stop out st => .stop out st
  | .next st =>
    if st.segmentspath.length ≠ fmeta.SegmentList.length then
      .stop (.ret "" (some "download failed")) st
    else
      assemble env cipher fmeta userfile st

/-- The deferred function of lines 67-74. -/
def cleanup (basedir : String) (fmeta : FileMetadata) (st : State) : State :=
  fmeta.SegmentList.foldl
    (fun st segment =>
      segment.FragmentList.foldl
        (fun st fragment => osRemove st (Join basedir fragment.Hash))
        (osRemove st (Join basedir segment.Hash)))
    st

/-- Run deferred work on the state of whatever exit was taken. -/
def Ctl.defer (c : Ctl) (g : State → State) : Ctl :=
  match c with
  | .next st => .next (g st)
  | .stop out st => .stop out (g st)

/-- Lines 48-161, executed while the lease is held. -/
def retrieveBody (env : Env) (fid savedir cipher : String) (st : State) : Ctl :=
  let userfile := Join savedir fid
  let st := st.log (.Stat userfile)
  let fast : Bool :=
    match st.fs userfile with
    | some b => decide (b.length > 0)
    | none => false
  if fast then
    .stop (.ret userfile none) st
  else
    let st := st.log (.MkdirAll savedir)
    let st := st.log (.Create userfile)
    match env.Create st userfile with
    | some err => .stop (.ret "" (some err)) st
    | none =>
      let st := st.setFs (fsWrite st.fs userfile [])
      Ctl.defer
        (let st := st.log (.QueryFile fid)
         match env.QueryFile st fid with
         | .error err => Ctl.stop (.ret "" (some err)) st
         | .ok fmeta =>
           let st := { st with fmeta := some fmeta }
           Ctl.defer (download env savedir cipher fmeta userfile st) (cleanup savedir fmeta))
        (fun st => st.log (.Close userfile))

/-- What a call of `retrieve_file` leaves behind: its outcome, the lease set,
and the final machine state (file system, trace, last values of the locals). -/
structure Result where
  out : Outcome
  retrieve_files : Finset String
  st : State

/-- The state in which a call starts: nothing done yet, locals unset. -/
def initState (fs : FS) : State :=
  { fs := fs, trace := [], fmeta := none, fragmentpaths := [], segmentspath := [],
    writecount := 0 }

def errBusy : Err :=
  "The file is being retrieved from the storage network, please try again later."

/-- The function `Node.retrieve_file`, started with lease set `retrieve_files` and file system `fs`. -/
def retrieve_file (env : Env) (retrieve_files : Finset String) (fs : FS)
    (fid savedir cipher : String) : Result :=
  if fid ∈ retrieve_files then
    { out := .ret "" (some errBusy), retrieve_files := retrieve_files, st := initState fs }
  else
    let retrieve_files := insert fid retrieve_files
    let c := retrieveBody env fid savedir cipher (initState fs)
    let out := match c with
      | .next _ => Outcome.crash
      | .stop out _ => out
    { out := out, retrieve_files := retrieve_files.erase fid, st := c.state }

/-! ## The track-file store (`node/node.go`) -/

/-- The collaborators of `WriteTrackFile` outside the repository: the constant
`chain.FileHashLen`, the stream of names returned by successive calls of
`uuid.New().String()`, and the failures of the file operations. -/
structure TrackEnv where
  FileHashLen : Nat
  uuid : Nat → String
  /-- The call `os.Create`: `none` when the file is created. -/
  Create : FS → String → Option Err
  /-- The call `f.Write(data)`: `none` when all of `data` was written, otherwise the
  number of bytes that reached the file and the error. -/
  Write : FS → String → Bytes → Option (Nat × Err)
  /-- The call `f.Sync()`. -/
  Sync : FS → String → Option Err
  /-- The call `os.Rename(src, dst)`: `none` when the rename took place. -/
  Rename : FS → String → String → Option Err

/-- Result of a successful `os.Rename(src, dst)`. -/
def fsRename (fs : FS) (src dst : String) : FS :=
  if src = dst then fs
  else fun q => if q = dst then fs src else if q = src then none else fs q

/-- The loop of lines 143-150: the index of the first generated name, from the
`i`-th on, at which `os.Stat` fails; `none` when `fuel` names were all taken. -/
def freshIndex (env : TrackEnv) (trackDir : String) (fs : FS) : Nat → Nat → Option Nat
  | 0, _ => none
  | fuel + 1, i =>
    if (fs (Join trackDir (env.uuid i))).isNone then some i
    else freshIndex env trackDir fs fuel (i + 1)

structure TrackResult where
  err : Option Err
  fs : FS
  trace : List Event
  /-- The temporary path `fpath`, `""` when the call returned before choosing one. -/
  fpath : String

/-- The call `errors.Wrap(err, msg)`. -/
def Wrap (err : Err) (msg : String) : Err := msg ++ ": " ++ err

/-- The function `Node.WriteTrackFile`; `none` when the name loop is still running after `fuel` rounds. -/
def WriteTrackFile (env : TrackEnv) (fuel : Nat) (trackDir : String) (fs : FS)
    (fid : String) (data : Bytes) : Option TrackResult :=
  if fid.length ≠ env.FileHashLen then
    some { err := some "invalid fid", fs := fs, trace := [], fpath := "" }
  else
    match freshIndex env trackDir fs fuel 0 with
    | none => none
    | some i =>
      let fpath := Join trackDir (env.uuid i)
      let stats := (List.range (i + 1)).map fun j => Event.Stat (Join trackDir (env.uuid j))
      match env.Create fs fpath with
      | some err =>
        some { err := some (Wrap err "[os.Create]"), fs := fs,
               trace := stats ++ [.Create fpath], fpath := fpath }
      | none =>
        let fs1 := fsWrite fs fpath []
        match env.Write fs1 fpath data with
        | some (m, err) =>
          some { err := some (Wrap err "[Write]"),
                 fs := fsRemove (fsWrite fs1 fpath (data.take m)) fpath,
                 trace := stats ++ [.Create fpath, .Write fpath (data.take m), .Close fpath,
                   .Remove fpath],
                 fpath := fpath }
        | none =>
          let fs2 := fsWrite fs1 fpath data
          match env.Sync fs2 fpath with
          | some err =>
            some { err := some (Wrap err "[Sync]"), fs := fsRemove fs2 fpath,
                   trace := stats ++ [.Create fpath, .Write fpath data, .Sync fpath,
                     .Close fpath, .Remove fpath],
                   fpath := fpath }
          | none =>
            match env.Rename fs2 fpath (Join trackDir fid) with
            | some err =>
              some { err := some err, fs := fsRemove fs2 fpath,
                     trace := stats ++ [.Create fpath, .Write fpath data, .Sync fpath,
                       .Close fpath, .Rename fpath (Join trackDir fid), .Remove fpath],
                     fpath := fpath }
            | none =>
              some { err := none,
                     fs := fsRemove (fsRename fs2 fpath (Join trackDir fid)) fpath,
                     trace := stats ++ [.Create fpath, .Write fpath data, .Sync fpath,
                       .Close fpath, .Rename fpath (Join trackDir fid), .Remove fpath],
                     fpath := fpath }

/-- The function `Node.ParseTrackFile`, with `json.Unmarshal` into `RecordInfo` as the parameter `Unmarshal`. -/
def ParseTrackFile (RecordInfo : Type) (Unmarshal : Bytes → Except Err RecordInfo)
    (trackDir : String) (fs : FS) (filehash : String) : Except Err RecordInfo :=
  match fs (Join trackDir filehash) with
  | none => .error "no such file or directory"
  | some b => Unmarshal b

/-! ## Definitions used in the statements -/

/-- Every temporary path of the metadata: each segment file followed by its fragment files. -/
def metaPaths (basedir : String) (segs : List SegmentInfo) : List String :=
  segs.flatMap fun segment =>
    Join basedir segment.Hash :: segment.FragmentList.map fun fragment => Join basedir fragment.Hash

/-- The part of the state that the download phase cannot change at a path `q`
outside the temporary paths: the file at `q` and the locals `fmeta`, `writecount`. -/
def keeps (q : String) (v : Option Bytes) (m : Option FileMetadata) (w : Nat) (st : State) : Prop :=
  st.fs q = v ∧ st.fmeta = m ∧ st.writecount = w

/-- Two states that differ at most in their trace. -/
def sameData (a b : State) : Prop :=
  a.fs = b.fs ∧ a.fmeta = b.fmeta ∧ a.writecount = b.writecount

/-- The buffer that lines 137-154 hand to `f.Write` for file content `buf`. -/
def decode (env : Env) (cipher : String) (buf : Bytes) : Except Err Bytes :=
  if cipher ≠ "" then env.AesCbcDecrypt buf cipher else .ok buf

/-- The (decrypted) bytes of the segment file at `p`; empty when it cannot be read or decrypted. -/
def segmentBytes (env : Env) (cipher : String) (fs : FS) (p : String) : Bytes :=
  match fs p with
  | some c =>
    match decode env cipher c with
    | .ok d => d
    | .error _ => []
  | none => []

/-- All buffers in order, the last one cut to its first `bound` bytes. -/
def assembled (bound : Nat) : List Bytes → Bytes
  | [] => []
  | [d] => d.take bound
  | d :: ds => d ++ assembled bound ds

/-- The state at line 76, after the destination was created and the metadata obtained. -/
def downloadStart (env : Env) (fs : FS) (fid savedir : String) (fmeta : FileMetadata) : State :=
  { fs := fsWrite fs (Join savedir fid) []
    trace := [.Stat (Join savedir fid), .MkdirAll savedir, .Create (Join savedir fid),
      .QueryFile fid]
    fmeta := some fmeta
    fragmentpaths := List.replicate (env.DataShards + env.ParShards) ""
    segmentspath := []
    writecount := 0 }

def Ctl.isNext : Ctl → Bool
  | .next _ => true
  | .stop _ _ => false

/-- The contents of the reconstructed segment files, in `SegmentList` order. -/
def segmentContents (fs : FS) (savedir : String) (fmeta : FileMetadata) : List Bytes :=
  fmeta.SegmentList.map fun segment => (fs (Join savedir segment.Hash)).getD []

/-- The decrypted content of the file at `p`, when the file exists and decrypts. -/
def decrypted (env : Env) (cipher : String) (fs : FS) (p : String) : Option Bytes :=
  match fs p with
  | some c =>
    match env.AesCbcDecrypt c cipher with
    | .ok d => some d
    | .error _ => none
  | none => none

/-- The decrypted segments, in `SegmentList` order. -/
def decryptedSegments (env : Env) (cipher : String) (fs : FS) (savedir : String)
    (fmeta : FileMetadata) : List Bytes :=
  fmeta.SegmentList.map fun segment =>
    (decrypted env cipher fs (Join savedir segment.Hash)).getD []

/-- The events that reach the chain or a peer. -/
def Event.isNetwork : Event → Bool
  | .QueryFile _ => true
  | .QueryMinerItems _ => true
  | .GetPeer _ => true
  | .AddAddrs _ => true
  | .ClearAddrs _ => true
  | .ReadDataAction _ _ _ => true
  | _ => false

/-! ## A concrete environment

A small network used to run the model on explicit inputs: two data shards and
one parity shard of two bytes each, segments of four bytes.  File `f1` has one
segment, `f2` has two; `nofile` is unknown to the chain; miner `m_down` cannot
be queried, the peer of miner `m_lost` is not in the address book, and the peer
of miner `m_off` does not answer. -/

def sampleMeta1 : FileMetadata :=
  { SegmentList := [{ Hash := "s1", FragmentList := [⟨"a1", "m1"⟩, ⟨"a2", "m2"⟩, ⟨"zero", "m0"⟩] }],
    FileSize := 3 }

def sampleMeta2 : FileMetadata :=
  { SegmentList :=
      [{ Hash := "s1", FragmentList := [⟨"a1", "m1"⟩, ⟨"a2", "m2"⟩, ⟨"zero", "m0"⟩] },
       { Hash := "s2", FragmentList := [⟨"b1", "m1"⟩, ⟨"b2", "m2"⟩, ⟨"zero", "m0"⟩] }],
    FileSize := 6 }

def sampleMeta3 : FileMetadata :=
  { SegmentList := [{ Hash := "s1", FragmentList := [⟨"a1", "m_down"⟩, ⟨"a2", "m2"⟩, ⟨"zero", "m0"⟩] }],
    FileSize := 3 }

def sampleMeta4 : FileMetadata :=
  { SegmentList := [{ Hash := "s1", FragmentList := [⟨"a1", "m_lost"⟩, ⟨"a2", "m_off"⟩, ⟨"zero", "m0"⟩] }],
    FileSize := 3 }

def sampleData : String → Bytes
  | "a1" => [1, 2]
  | "a2" => [3, 4]
  | "b1" => [5, 6]
  | "b2" => [7, 8]
  | _ => [9, 9]

def sampleEnv : Env :=
  { DataShards := 2
    ParShards := 1
    FragmentSize := 2
    SegmentSize := 4
    ZeroFileHash_8M := "zero"
    Create := fun _ _ => none
    QueryFile := fun _ fid =>
      if fid = "f1" then .ok sampleMeta1
      else if fid = "f2" then .ok sampleMeta2
      else if fid = "f3" then .ok sampleMeta3
      else if fid = "f4" then .ok sampleMeta4
      else .error "file not found"
    QueryMinerItems := fun _ miner =>
      if miner = "m_down" then .error "miner not found" else .ok ⟨miner⟩
    Encode := fun s => s
    GetPeer := fun _ peerid => if peerid = "m_lost" then none else some ⟨peerid, []⟩
    ReadDataAction := fun _ id hash _ =>
      if id = "m_off" then (.keep, some "stream reset") else (.put (sampleData hash), none)
    RSRestore := fun st _ fragmentpaths =>
      match fragmentpaths with
      | p0 :: p1 :: _ =>
        match st.fs p0, st.fs p1 with
        | some b0, some b1 => (.put (b0 ++ b1), none)
        | _, _ => (.keep, some "too few shards given")
      | _ => (.keep, some "too few shards given")
    ReadFileErr := fun _ _ => none
    AesCbcDecrypt := fun buf _ =>
      match buf with
      | [] => .error "invalid ciphertext"
      | _ => .ok buf.dropLast
    Sync := fun _ => none
    Reslice := fun _ _ => none }

def emptyFS : FS := fun _ => none

/-- A track directory with one taken temporary name, and 4-character keys. -/
def sampleTrackEnv : TrackEnv :=
  { FileHashLen := 4
    uuid := fun i => if i = 0 then "tmp-0" else "tmp-1"
    Create := fun _ _ => none
    Write := fun _ _ _ => none
    Sync := fun _ _ => none
    Rename := fun _ _ _ => none }

def sampleTrackFS : FS :=
  fsWrite (fsWrite emptyFS (Join "t" "tmp-0") [9]) (Join "t" "abcd") [1]

/-! # Theorems -/

/-! ## Lease handling and the fast path -/

/-- C2: a call for an identifier that is already in the lease set returns the
"being retrieved" error at once, performs no file-system, metadata or peer
operation (empty trace, file system untouched) and leaves the lease set as it
was, so the identifier stays held by the earlier request. -/
theorem retrieve_file_duplicate (env : Env) (retrieve_files : Finset String) (fs : FS)
    (fid savedir cipher : String) (h : fid ∈ retrieve_files) :
    (retrieve_file env retrieve_files fs fid savedir cipher).out = .ret "" (some errBusy) ∧
    (retrieve_file env retrieve_files fs fid savedir cipher).st.trace = [] ∧
    (retrieve_file env retrieve_files fs fid savedir cipher).st.fs = fs ∧
    (retrieve_file env retrieve_files fs fid savedir cipher).retrieve_files = retrieve_files ∧
    fid ∈ (retrieve_file env retrieve_files fs fid savedir cipher).retrieve_files := by
  simp [retrieve_file, h, initState]

theorem retrieve_file_duplicate_witness :
    "f1" ∈ ({"f1", "f2"} : Finset String) ∧
    (retrieve_file sampleEnv {"f1", "f2"} emptyFS "f1" "d" "").out = .ret "" (some errBusy) ∧
    (retrieve_file sampleEnv {"f1", "f2"} emptyFS "f1" "d" "").st.trace = [] :=
  ⟨by decide,
   (retrieve_file_duplicate sampleEnv {"f1", "f2"} emptyFS "f1" "d" "" (by decide)).1,
   (retrieve_file_duplicate sampleEnv {"f1", "f2"} emptyFS "f1" "d" "" (by decide)).2.1⟩

/-- C3: a call that starts with `fid` outside the lease set ends, whatever the
collaborators answer and on every exit (return or panic), with `fid` outside
the lease set and every other identifier held exactly when it was held before. -/
theorem retrieve_file_releases_lease (env : Env) (retrieve_files : Finset String) (fs : FS)
    (fid savedir cipher : String) (h : fid ∉ retrieve_files) :
    fid ∉ (retrieve_file env retrieve_files fs fid savedir cipher).retrieve_files ∧
    ∀ g, g ≠ fid →
      (g ∈ (retrieve_file env retrieve_files fs fid savedir cipher).retrieve_files ↔
        g ∈ retrieve_files) := by
  simp only [retrieve_file, if_neg h]
  refine ⟨by simp, ?_⟩
  intro g hg
  simp [hg]

theorem retrieve_file_releases_lease_witness :
    "f4" ∉ ({"f1"} : Finset String) ∧
    "f4" ∉ (retrieve_file sampleEnv {"f1"} emptyFS "f4" "d" "").retrieve_files ∧
    ("f1" ∈ (retrieve_file sampleEnv {"f1"} emptyFS "f4" "d" "").retrieve_files ↔
      "f1" ∈ ({"f1"} : Finset String)) :=
  ⟨by decide,
   (retrieve_file_releases_lease sampleEnv {"f1"} emptyFS "f4" "d" "" (by decide)).1,
   (retrieve_file_releases_lease sampleEnv {"f1"} emptyFS "f4" "d" "" (by decide)).2 "f1"
     (by decide)⟩

/-- C6: when `fid` is not leased and a file of positive size already exists at
`savedir/fid`, the call returns `(savedir/fid, nil)`; its only effect is the
`os.Stat` of that path, so no metadata query, miner query or peer contact is
made and the file system, the existing file included, is unchanged. -/
theorem retrieve_file_fast_path (env : Env) (retrieve_files : Finset String) (fs : FS)
    (fid savedir cipher : String) (b : Bytes) (h : fid ∉ retrieve_files)
    (hfile : fs (Join savedir fid) = some b) (hsize : 0 < b.length) :
    (retrieve_file env retrieve_files fs fid savedir cipher).out = .ret (Join savedir fid) none ∧
    (retrieve_file env retrieve_files fs fid savedir cipher).st.trace = [.Stat (Join savedir fid)] ∧
    (retrieve_file env retrieve_files fs fid savedir cipher).st.fs = fs := by
  simp [retrieve_file, h, retrieveBody, State.log, hfile, hsize, Ctl.state, initState]

theorem retrieve_file_fast_path_witness :
    (retrieve_file sampleEnv ∅ (fsWrite emptyFS (Join "d" "f1") [7]) "f1" "d" "").out
      = .ret (Join "d" "f1") none ∧
    (retrieve_file sampleEnv ∅ (fsWrite emptyFS (Join "d" "f1") [7]) "f1" "d" "").st.trace
      = [.Stat (Join "d" "f1")] ∧
    (retrieve_file sampleEnv ∅ (fsWrite emptyFS (Join "d" "f1") [7]) "f1" "d" "").st.fs
      = fsWrite emptyFS (Join "d" "f1") [7] :=
  retrieve_file_fast_path sampleEnv ∅ (fsWrite emptyFS (Join "d" "f1") [7]) "f1" "d" "" [7]
    (by decide) (by decide) (by decide)

/-! ## Paths -/

theorem Join_inj {d a b : String} (h : Join d a = Join d b) : a = b := by
  unfold Join at h
  have h2 := congrArg String.data h
  simp only [String.data_append, List.append_assoc, List.append_cancel_left_eq] at h2
  exact String.ext h2

theorem Join_ne {d a b : String} (h : a ≠ b) : Join d a ≠ Join d b :=
  fun e => h (Join_inj e)

/-! ## Properties kept by the loops -/

theorem fragmentLoop_preserves (env : Env) (savedir : String) (P : State → Prop)
    (frags : List FragmentInfo)
    (hbody : ∀ k fragment st, fragment ∈ frags → P st →
      P (fragmentBody env savedir k fragment st).state) :
    ∀ k st, P st → P (fragmentLoop env savedir k frags st).state := by
  induction frags with
  | nil => intro k st h; simpa [fragmentLoop, Ctl.state] using h
  | cons fragment rest ih =>
    intro k st h
    have hb := hbody k fragment st (List.mem_cons_self _ _) h
    cases hf : fragmentBody env savedir k fragment st with
    | next st1 =>
      rw [hf] at hb
      simp only [fragmentLoop, hf]
      exact ih (fun k f s hm hp => hbody k f s (List.mem_cons_of_mem _ hm) hp) (k + 1) st1 hb
    | stop out st1 =>
      rw [hf] at hb
      simpa [fragmentLoop, hf] using hb

theorem segmentLoop_preserves (env : Env) (savedir : String) (P : State → Prop)
    (segs : List SegmentInfo)
    (hbody : ∀ segment st, segment ∈ segs → P st →
      P (segmentBody env savedir segment st).state) :
    ∀ st, P st → P (segmentLoop env savedir segs st).state := by
  induction segs with
  | nil => intro st h; simpa [segmentLoop, Ctl.state] using h
  | cons segment rest ih =>
    intro st h
    have hb := hbody segment st (List.mem_cons_self _ _) h
    cases hf : segmentBody env savedir segment st with
    | next st1 =>
      rw [hf] at hb
      simp only [segmentLoop, hf]
      exact ih (fun s t hm hp => hbody s t (List.mem_cons_of_mem _ hm) hp) st1 hb
    | stop out st1 =>
      rw [hf] at hb
      simpa [segmentLoop, hf] using hb

theorem writeLoop_preserves (env : Env) (cipher : String) (fmeta : FileMetadata)
    (userfile : String) (P : State → Prop) (ps : List String)
    (hbody : ∀ p st, p ∈ ps → P st → P (writeBody env cipher fmeta userfile p st).state) :
    ∀ st, P st → P (writeLoop env cipher fmeta userfile ps st).state := by
  induction ps with
  | nil => intro st h; simpa [writeLoop, Ctl.state] using h
  | cons p rest ih =>
    intro st h
    have hb := hbody p st (List.mem_cons_self _ _) h
    cases hf : writeBody env cipher fmeta userfile p st with
    | next st1 =>
      rw [hf] at hb
      simp only [writeLoop, hf]
      exact ih (fun s t hm hp => hbody s t (List.mem_cons_of_mem _ hm) hp) st1 hb
    | stop out st1 =>
      rw [hf] at hb
      simpa [writeLoop, hf] using hb

theorem fragmentBody_keeps (env : Env) (savedir : String) (k : Nat) (fragment : FragmentInfo)
    (st : State) (q : String) (v : Option Bytes) (m : Option FileMetadata) (w : Nat)
    (hq : q ≠ Join savedir fragment.Hash) (h : keeps q v m w st) :
    keeps q v m w (fragmentBody env savedir k fragment st).state := by
  obtain ⟨h1, h2, h3⟩ := h
  unfold fragmentBody
  simp only
  split
  · split
    · split
      · simp [Ctl.state, keeps, State.log, h1, h2, h3]
      · split
        · simp [Ctl.state, keeps, State.log, h1, h2, h3]
        · have hfs : ∀ e : FileEffect, applyEffect st.fs (Join savedir fragment.Hash) e q = v := by
            intro e; cases e <;> simp [applyEffect, fsWrite, fsRemove, hq, h1]
          split <;> simp [Ctl.state, keeps, State.log, State.setFs, hfs, h2, h3]
    · split
      · simp [Ctl.state, keeps, State.log, h1, h2, h3]
      · split
        · simp [Ctl.state, keeps, State.log, h1, h2, h3]
        · simp [Ctl.state, keeps, State.log, State.setFs, fsAppend, fsWrite, hq, h1, h2, h3]
  · simp [Ctl.state, keeps, h1, h2, h3]

theorem segmentBody_keeps (env : Env) (savedir : String) (segment : SegmentInfo)
    (st : State) (q : String) (v : Option Bytes) (m : Option FileMetadata) (w : Nat)
    (hq : q ∉ metaPaths savedir [segment]) (h : keeps q v m w st) :
    keeps q v m w (segmentBody env savedir segment st).state := by
  simp only [metaPaths, List.flatMap_cons, List.flatMap_nil, List.append_nil, List.mem_cons,
    List.mem_map, not_or, not_exists, not_and] at hq
  have hl := fragmentLoop_preserves env savedir (keeps q v m w) segment.FragmentList
    (fun k f s hm hp => fragmentBody_keeps env savedir k f s q v m w
      (fun e => hq.2 f hm e.symm) hp) 0 st h
  unfold segmentBody
  cases hf : fragmentLoop env savedir 0 segment.FragmentList st with
  | stop out st1 => rw [hf] at hl; simpa [Ctl.state] using hl
  | next st1 =>
    rw [hf] at hl
    obtain ⟨h1, h2, h3⟩ := hl
    simp only [Ctl.state] at h1 h2 h3
    have hfs : ∀ e : FileEffect, applyEffect st1.fs (Join savedir segment.Hash) e q = v := by
      intro e; cases e <;> simp [applyEffect, fsWrite, fsRemove, hq.1, h1]
    simp only
    split <;> simp [Ctl.state, keeps, State.log, State.setFs, hfs, h2, h3]

theorem segmentLoop_keeps (env : Env) (savedir : String) (segs : List SegmentInfo)
    (st : State) (q : String) (v : Option Bytes) (m : Option FileMetadata) (w : Nat)
    (hq : q ∉ metaPaths savedir segs) (h : keeps q v m w st) :
    keeps q v m w (segmentLoop env savedir segs st).state := by
  apply segmentLoop_preserves env savedir (keeps q v m w) segs _ st h
  intro segment s hm hp
  apply segmentBody_keeps env savedir segment s q v m w _ hp
  intro hmem
  apply hq
  simp only [metaPaths, List.mem_flatMap] at hmem ⊢
  obtain ⟨s1, hs1, hq1⟩ := hmem
  rw [List.mem_singleton] at hs1
  exact ⟨segment, hm, hs1 ▸ hq1⟩

theorem fragmentBody_locals (env : Env) (savedir : String) (k : Nat) (fragment : FragmentInfo)
    (st : State) :
    (fragmentBody env savedir k fragment st).state.fmeta = st.fmeta ∧
    (fragmentBody env savedir k fragment st).state.writecount = st.writecount := by
  unfold fragmentBody
  simp only
  split
  · split
    · split
      · simp [Ctl.state, State.log]
      · split
        · simp [Ctl.state, State.log]
        · split <;> simp [Ctl.state, State.log, State.setFs]
    · split
      · simp [Ctl.state, State.log]
      · split <;> simp [Ctl.state, State.log, State.setFs]
  · simp [Ctl.state]

theorem segmentBody_locals (env : Env) (savedir : String) (segment : SegmentInfo) (st : State)
    (m : Option FileMetadata) (w : Nat) (h : st.fmeta = m ∧ st.writecount = w) :
    (segmentBody env savedir segment st).state.fmeta = m ∧
    (segmentBody env savedir segment st).state.writecount = w := by
  have hl := fragmentLoop_preserves env savedir (fun s => s.fmeta = m ∧ s.writecount = w)
    segment.FragmentList
    (fun k f s _ hp => by
      have := fragmentBody_locals env savedir k f s
      exact ⟨this.1.trans hp.1, this.2.trans hp.2⟩) 0 st h
  unfold segmentBody
  cases hf : fragmentLoop env savedir 0 segment.FragmentList st with
  | stop out st1 => rw [hf] at hl; simpa [Ctl.state] using hl
  | next st1 =>
    rw [hf] at hl
    simp only [Ctl.state] at hl
    simp only
    split <;> simp [Ctl.state, State.log, State.setFs, hl]

theorem segmentLoop_locals (env : Env) (savedir : String) (segs : List SegmentInfo) (st : State) :
    (segmentLoop env savedir segs st).state.fmeta = st.fmeta ∧
    (segmentLoop env savedir segs st).state.writecount = st.writecount :=
  segmentLoop_preserves env savedir
    (fun s => s.fmeta = st.fmeta ∧ s.writecount = st.writecount) segs
    (fun segment s _ hp => segmentBody_locals env savedir segment s _ _ hp) st ⟨rfl, rfl⟩

/-! ## The deferred cleanup -/

theorem foldl_osRemove_fs (ps : List String) (q : String) :
    ∀ st : State, (ps.foldl osRemove st).fs q = if q ∈ ps then none else st.fs q := by
  induction ps with
  | nil => intro st; simp
  | cons p rest ih =>
    intro st
    rw [List.foldl_cons, ih]
    by_cases hq : q = p
    · subst hq
      simp [osRemove, State.setFs, State.log, fsRemove]
    · by_cases hr : q ∈ rest
      · simp [hr]
      · simp [hr, hq, osRemove, State.setFs, State.log, fsRemove]

theorem foldl_osRemove_locals (ps : List String) :
    ∀ st : State, (ps.foldl osRemove st).fmeta = st.fmeta ∧
      (ps.foldl osRemove st).writecount = st.writecount := by
  induction ps with
  | nil => intro st; simp
  | cons p rest ih =>
    intro st
    rw [List.foldl_cons]
    have := ih (osRemove st p)
    simpa [osRemove, State.setFs, State.log] using this

theorem cleanup_eq (basedir : String) (segs : List SegmentInfo) :
    ∀ st : State, cleanup basedir ⟨segs, n⟩ st = (metaPaths basedir segs).foldl osRemove st := by
  induction segs with
  | nil => intro st; simp [cleanup, metaPaths]
  | cons segment rest ih =>
    intro st
    have ih2 := ih
    simp only [cleanup] at ih2
    simp only [cleanup, metaPaths, List.foldl_cons, List.flatMap_cons, List.foldl_append,
      List.cons_append, List.foldl_map]
    rw [ih2]
    rfl

theorem cleanup_fs (basedir : String) (fmeta : FileMetadata) (st : State) (q : String) :
    (cleanup basedir fmeta st).fs q =
      if q ∈ metaPaths basedir fmeta.SegmentList then none else st.fs q := by
  cases fmeta with
  | mk segs n => rw [cleanup_eq]; exact foldl_osRemove_fs _ q st

theorem cleanup_locals (basedir : String) (fmeta : FileMetadata) (st : State) :
    (cleanup basedir fmeta st).fmeta = st.fmeta ∧
    (cleanup basedir fmeta st).writecount = st.writecount := by
  cases fmeta with
  | mk segs n => rw [cleanup_eq]; exact foldl_osRemove_locals _ st

theorem mem_metaPaths_segment {basedir : String} {segs : List SegmentInfo} {segment : SegmentInfo}
    (h : segment ∈ segs) : Join basedir segment.Hash ∈ metaPaths basedir segs := by
  simp only [metaPaths, List.mem_flatMap]
  exact ⟨segment, h, List.mem_cons_self _ _⟩

theorem mem_metaPaths_fragment {basedir : String} {segs : List SegmentInfo} {segment : SegmentInfo}
    {fragment : FragmentInfo} (h : segment ∈ segs) (hf : fragment ∈ segment.FragmentList) :
    Join basedir fragment.Hash ∈ metaPaths basedir segs := by
  simp only [metaPaths, List.mem_flatMap]
  exact ⟨segment, h, List.mem_cons_of_mem _ (List.mem_map.2 ⟨fragment, hf, rfl⟩)⟩

/-- A name that is no segment or fragment hash of the metadata gives no temporary path. -/
theorem not_mem_metaPaths {basedir name : String} {segs : List SegmentInfo}
    (h : ∀ segment ∈ segs, segment.Hash ≠ name ∧
      ∀ fragment ∈ segment.FragmentList, fragment.Hash ≠ name) :
    Join basedir name ∉ metaPaths basedir segs := by
  simp only [metaPaths, List.mem_flatMap, List.mem_cons, List.mem_map, not_exists, not_and,
    not_or]
  intro segment hs
  refine ⟨fun e => (h segment hs).1 (Join_inj e).symm, ?_⟩
  intro fragment hf e
  exact (h segment hs).2 fragment hf (Join_inj e)

/-! ## Assembly: what it leaves alone -/

theorem writeSegment_cases (env : Env) (fmeta : FileMetadata) (userfile : String) (st : State)
    (buffer : Bytes) :
    (∃ b, writeSegment env fmeta userfile st buffer = .next (fWrite userfile st b)) ∨
    (∃ out, writeSegment env fmeta userfile st buffer = .stop out st) := by
  unfold writeSegment
  split
  · split
    · exact Or.inl ⟨_, rfl⟩
    · split
      · exact Or.inl ⟨_, rfl⟩
      · exact Or.inr ⟨_, rfl⟩
  · exact Or.inl ⟨_, rfl⟩

theorem writeDecoded_cases (env : Env) (cipher : String) (fmeta : FileMetadata)
    (userfile : String) (st : State) (buf : Bytes) :
    (∃ st1 b, sameData st1 st ∧
      writeDecoded env cipher fmeta userfile st buf = .next (fWrite userfile st1 b)) ∨
    (∃ st1 out, sameData st1 st ∧
      writeDecoded env cipher fmeta userfile st buf = .stop out st1) := by
  unfold writeDecoded
  split
  · simp only
    split
    · exact Or.inr ⟨st.log (.AesCbcDecrypt cipher), _, ⟨rfl, rfl, rfl⟩, rfl⟩
    · rename_i buffer _
      rcases writeSegment_cases env fmeta userfile (st.log (.AesCbcDecrypt cipher)) buffer with
        ⟨b, hb⟩ | ⟨out, ho⟩
      · exact Or.inl ⟨st.log (.AesCbcDecrypt cipher), b, ⟨rfl, rfl, rfl⟩, hb⟩
      · exact Or.inr ⟨st.log (.AesCbcDecrypt cipher), out, ⟨rfl, rfl, rfl⟩, ho⟩
  · rcases writeSegment_cases env fmeta userfile st buf with ⟨b, hb⟩ | ⟨out, ho⟩
    · exact Or.inl ⟨st, b, ⟨rfl, rfl, rfl⟩, hb⟩
    · exact Or.inr ⟨st, out, ⟨rfl, rfl, rfl⟩, ho⟩

theorem writeBody_cases (env : Env) (cipher : String) (fmeta : FileMetadata) (userfile : String)
    (p : String) (st : State) :
    (∃ st1 b, sameData st1 st ∧ writeBody env cipher fmeta userfile p st =
      .next { fWrite userfile st1 b with writecount := st.writecount + 1 }) ∨
    (∃ st1 out, sameData st1 st ∧ writeBody env cipher fmeta userfile p st = .stop out st1) := by
  unfold writeBody
  simp only
  split
  · exact Or.inr ⟨st.log (.ReadFile p), _, ⟨rfl, rfl, rfl⟩, rfl⟩
  · rename_i buf _
    rcases writeDecoded_cases env cipher fmeta userfile (st.log (.ReadFile p)) buf with
      ⟨st1, b, hs, hb⟩ | ⟨st1, out, hs, ho⟩
    · refine Or.inl ⟨st1, b, hs, ?_⟩
      rw [hb]
      have hw : st1.writecount = st.writecount := hs.2.2
      simp [fWrite, State.log, State.setFs, hw]
    · exact Or.inr ⟨st1, out, hs, by rw [ho]⟩

theorem writeBody_frame (env : Env) (cipher : String) (fmeta : FileMetadata) (userfile : String)
    (p : String) (st : State) (q : String) (hq : q ≠ userfile) :
    (writeBody env cipher fmeta userfile p st).state.fs q = st.fs q := by
  rcases writeBody_cases env cipher fmeta userfile p st with
    ⟨st1, b, hs, hb⟩ | ⟨st1, out, hs, ho⟩
  · rw [hb]; simp [Ctl.state, fWrite, State.log, State.setFs, fsAppend, hq, hs.1]
  · rw [ho]; simp [Ctl.state, hs.1]

theorem writeBody_fmeta (env : Env) (cipher : String) (fmeta : FileMetadata) (userfile : String)
    (p : String) (st : State) :
    (writeBody env cipher fmeta userfile p st).state.fmeta = st.fmeta := by
  rcases writeBody_cases env cipher fmeta userfile p st with
    ⟨st1, b, hs, hb⟩ | ⟨st1, out, hs, ho⟩
  · rw [hb]; simp [Ctl.state, fWrite, State.log, State.setFs, hs.2.1]
  · rw [ho]; simp [Ctl.state, hs.2.1]

/-- As long as no segment has been written (`writecount = 0`), the destination is as it was. -/
theorem writeBody_unwritten (env : Env) (cipher : String) (fmeta : FileMetadata)
    (userfile : String) (p : String) (st : State) (v : Option Bytes)
    (h : st.writecount = 0 → st.fs userfile = v) :
    (writeBody env cipher fmeta userfile p st).state.writecount = 0 →
      (writeBody env cipher fmeta userfile p st).state.fs userfile = v := by
  rcases writeBody_cases env cipher fmeta userfile p st with
    ⟨st1, b, hs, hb⟩ | ⟨st1, out, hs, ho⟩
  · rw [hb]; simp [Ctl.state]
  · rw [ho]; simpa [Ctl.state, hs.1, hs.2.2] using h

theorem assemble_preserves (env : Env) (cipher : String) (fmeta : FileMetadata)
    (userfile : String) (P : State → Prop)
    (hbody : ∀ p s, P s → P (writeBody env cipher fmeta userfile p s).state)
    (hlog : ∀ s e, P s → P (s.log e)) (st : State) (h : P { st with writecount := 0 }) :
    P (assemble env cipher fmeta userfile st).state := by
  have hl := writeLoop_preserves env cipher fmeta userfile P st.segmentspath
    (fun p s _ hp => hbody p s hp) { st with writecount := 0 } h
  unfold assemble
  simp only
  cases hw : writeLoop env cipher fmeta userfile st.segmentspath { st with writecount := 0 } with
  | stop out st1 => rw [hw] at hl; simpa [Ctl.state] using hl
  | next st1 =>
    rw [hw] at hl
    simp only [Ctl.state] at hl
    by_cases hc : st1.writecount ≠ fmeta.SegmentList.length
    · simp only [if_pos hc, Ctl.state]; exact hl
    · simp only [if_neg hc, Ctl.state]; exact hlog _ _ hl

theorem download_preserves_aux (env : Env) (savedir cipher : String) (fmeta : FileMetadata)
    (userfile : String) (P Q : State → Prop)
    (hseg : ∀ s, P s → P (segmentLoop env savedir fmeta.SegmentList s).state)
    (hPQ : ∀ s, P s → Q s)
    (hreset : ∀ s : State, P s → Q { s with writecount := 0 })
    (hbody : ∀ p s, Q s → Q (writeBody env cipher fmeta userfile p s).state)
    (hlog : ∀ s e, Q s → Q (s.log e))
    (st0 : State) (h : P st0) :
    Q (match segmentLoop env savedir fmeta.SegmentList st0 with
        | .stop out st => Ctl.stop out st
        | .next st =>
          if st.segmentspath.length ≠ fmeta.SegmentList.length then
            Ctl.stop (.ret "" (some "download failed")) st
          else
            assemble env cipher fmeta userfile st).state := by
  have hl := hseg st0 h
  cases hs : segmentLoop env savedir fmeta.SegmentList st0 with
  | stop out st1 => rw [hs] at hl; exact hPQ _ hl
  | next st1 =>
    rw [hs] at hl
    simp only [Ctl.state] at hl
    by_cases hc : st1.segmentspath.length ≠ fmeta.SegmentList.length
    · simp only [if_pos hc, Ctl.state]; exact hPQ _ hl
    · simp only [if_neg hc]
      exact assemble_preserves env cipher fmeta userfile Q hbody hlog st1 (hreset st1 hl)

/-- A property `P` kept by the segment loop and a property `Q` kept by the
write loop, with `P` giving `Q` where the phases meet, yield `Q` at every exit
of the download-and-assemble block. -/
theorem download_preserves (env : Env) (savedir cipher : String) (fmeta : FileMetadata)
    (userfile : String) (P Q : State → Prop)
    (hseg : ∀ s, P s → P (segmentLoop env savedir fmeta.SegmentList s).state)
    (hPQ : ∀ s, P s → Q s)
    (hreset : ∀ s : State, P s → Q { s with writecount := 0 })
    (hbody : ∀ p s, Q s → Q (writeBody env cipher fmeta userfile p s).state)
    (hlog : ∀ s e, Q s → Q (s.log e))
    (st : State)
    (h : P { st with segmentspath := [],
                     fragmentpaths := List.replicate (env.DataShards + env.ParShards) "" }) :
    Q (download env savedir cipher fmeta userfile st).state :=
  download_preserves_aux env savedir cipher fmeta userfile P Q hseg hPQ hreset hbody hlog _ h

/-- The download and assembly never change the local `fmeta`. -/
theorem download_fmeta (env : Env) (savedir cipher : String) (fmeta : FileMetadata)
    (userfile : String) (st : State) :
    (download env savedir cipher fmeta userfile st).state.fmeta = st.fmeta :=
  download_preserves env savedir cipher fmeta userfile
    (fun s => s.fmeta = st.fmeta) (fun s => s.fmeta = st.fmeta)
    (fun s hs => (segmentLoop_locals env savedir fmeta.SegmentList s).1.trans hs)
    (fun _ hs => hs) (fun _ hs => hs)
    (fun p s hs => (writeBody_fmeta env cipher fmeta userfile p s).trans hs)
    (fun _ _ hs => hs) st rfl

/-- The download and assembly change no file other than the destination and
the temporary paths of the metadata. -/
theorem download_frame (env : Env) (savedir cipher : String) (fmeta : FileMetadata)
    (userfile q : String) (st : State) (hq : q ≠ userfile)
    (hqm : q ∉ metaPaths savedir fmeta.SegmentList) :
    (download env savedir cipher fmeta userfile st).state.fs q = st.fs q :=
  download_preserves env savedir cipher fmeta userfile
    (fun s => s.fs q = st.fs q) (fun s => s.fs q = st.fs q)
    (fun s hs => (segmentLoop_keeps env savedir fmeta.SegmentList s q (st.fs q) s.fmeta
      s.writecount hqm ⟨hs, rfl, rfl⟩).1)
    (fun _ hs => hs) (fun _ hs => hs)
    (fun p s hs => (writeBody_frame env cipher fmeta userfile p s q hq).trans hs)
    (fun _ _ hs => hs) st rfl

/-- While no segment has been written, the destination is as the download phase found it,
provided the destination is not one of the temporary paths. -/
theorem download_unwritten (env : Env) (savedir cipher : String) (fmeta : FileMetadata)
    (userfile : String) (st : State)
    (hum : userfile ∉ metaPaths savedir fmeta.SegmentList) :
    (download env savedir cipher fmeta userfile st).state.writecount = 0 →
      (download env savedir cipher fmeta userfile st).state.fs userfile = st.fs userfile :=
  download_preserves env savedir cipher fmeta userfile
    (fun s => s.fs userfile = st.fs userfile)
    (fun s => s.writecount = 0 → s.fs userfile = st.fs userfile)
    (fun s hs => (segmentLoop_keeps env savedir fmeta.SegmentList s userfile (st.fs userfile)
      s.fmeta s.writecount hum ⟨hs, rfl, rfl⟩).1)
    (fun _ hs _ => hs) (fun _ hs _ => hs)
    (fun p s hs => writeBody_unwritten env cipher fmeta userfile p s _ hs)
    (fun _ _ hs => hs) st rfl

/-! ## The four ways through `retrieveBody` -/

theorem Ctl.defer_state (c : Ctl) (g : State → State) : (c.defer g).state = g c.state := by
  cases c <;> rfl

theorem retrieveBody_shape (env : Env) (fid savedir cipher : String) (st : State) :
    ((∃ b, st.fs (Join savedir fid) = some b ∧ 0 < b.length) ∧
      (retrieveBody env fid savedir cipher st).state = st.log (.Stat (Join savedir fid))) ∨
    ((∃ s err, env.Create s (Join savedir fid) = some err) ∧
      (retrieveBody env fid savedir cipher st).state.fs = st.fs ∧
      (retrieveBody env fid savedir cipher st).state.fmeta = st.fmeta) ∨
    ((retrieveBody env fid savedir cipher st).state.fs = fsWrite st.fs (Join savedir fid) [] ∧
      (retrieveBody env fid savedir cipher st).state.fmeta = st.fmeta ∧
      (retrieveBody env fid savedir cipher st).state.writecount = st.writecount) ∨
    (∃ fmeta st1, st1.fs = fsWrite st.fs (Join savedir fid) [] ∧ st1.fmeta = some fmeta ∧
      st1.writecount = st.writecount ∧
      (retrieveBody env fid savedir cipher st).state =
        (cleanup savedir fmeta
          (download env savedir cipher fmeta (Join savedir fid) st1).state).log
          (.Close (Join savedir fid))) := by
  unfold retrieveBody
  simp only
  split
  · rename_i hfast
    left
    refine ⟨?_, rfl⟩
    simp only [State.log] at hfast
    cases hb : st.fs (Join savedir fid) with
    | none => simp [hb] at hfast
    | some b => exact ⟨b, rfl, by simpa [hb] using hfast⟩
  · split
    · rename_i err hc
      right; left
      exact ⟨⟨_, err, hc⟩, rfl, rfl⟩
    · split
      · right; right; left
        simp [Ctl.defer, Ctl.state, State.log, State.setFs]
      · rename_i fmeta _
        right; right; right
        refine ⟨fmeta, _, ?_, ?_, ?_, (by rw [Ctl.defer_state, Ctl.defer_state])⟩
        · rfl
        · rfl
        · rfl

/-! ## Temporary files and the destination on return -/

/-- C5: on every exit of `retrieve_file` (success, any error, or a panic
unwinding through the deferred calls) no segment or fragment file of the
request remains: whenever the call obtained the metadata, every path
`savedir/<segment hash>` and `savedir/<fragment hash>` of that metadata is
absent on return; in every case each path other than the destination is
either absent or holds exactly the file it held before the call, so nothing
the call created is left behind; and a call that returns without the metadata
has touched no path other than the destination. -/
theorem retrieve_file_removes_temporaries (env : Env) (retrieve_files : Finset String)
    (fs : FS) (fid savedir cipher : String) :
    (∀ fmeta, (retrieve_file env retrieve_files fs fid savedir cipher).st.fmeta = some fmeta →
      ∀ segment ∈ fmeta.SegmentList,
        (retrieve_file env retrieve_files fs fid savedir cipher).st.fs
            (Join savedir segment.Hash) = none ∧
        ∀ fragment ∈ segment.FragmentList,
          (retrieve_file env retrieve_files fs fid savedir cipher).st.fs
            (Join savedir fragment.Hash) = none) ∧
    (∀ q, q ≠ Join savedir fid →
      (retrieve_file env retrieve_files fs fid savedir cipher).st.fs q = none ∨
      (retrieve_file env retrieve_files fs fid savedir cipher).st.fs q = fs q) ∧
    ((retrieve_file env retrieve_files fs fid savedir cipher).st.fmeta = none →
      ∀ q, q ≠ Join savedir fid →
        (retrieve_file env retrieve_files fs fid savedir cipher).st.fs q = fs q) := by
  unfold retrieve_file
  by_cases h : fid ∈ retrieve_files
  · simp [h, initState]
  · simp only [if_neg h]
    rcases retrieveBody_shape env fid savedir cipher (initState fs) with
      ⟨_, hs⟩ | ⟨_, hfs, hm⟩ | ⟨hfs, hm, _⟩ | ⟨fmeta, st1, hfs1, hm1, _, hs⟩
    · rw [hs]
      simp [State.log, initState]
    · rw [hfs, hm]
      simp [initState]
    · rw [hfs, hm]
      refine ⟨by simp [initState], ?_, ?_⟩
      · intro q hq
        right
        simp [fsWrite, hq, initState]
      · intro _ q hq
        simp [fsWrite, hq, initState]
    · rw [hs]
      have hfm : ((cleanup savedir fmeta
          (download env savedir cipher fmeta (Join savedir fid) st1).state).log
          (.Close (Join savedir fid))).fmeta = some fmeta := by
        simp only [State.log]
        rw [(cleanup_locals _ _ _).1, download_fmeta, hm1]
      have hfs : ∀ q, ((cleanup savedir fmeta
          (download env savedir cipher fmeta (Join savedir fid) st1).state).log
          (.Close (Join savedir fid))).fs q =
          if q ∈ metaPaths savedir fmeta.SegmentList then none
          else (download env savedir cipher fmeta (Join savedir fid) st1).state.fs q := by
        intro q
        simp only [State.log]
        rw [cleanup_fs]
      refine ⟨?_, ?_, ?_⟩
      · intro fm hfm2 segment hseg
        rw [hfm] at hfm2
        cases hfm2
        refine ⟨?_, ?_⟩
        · rw [hfs, if_pos (mem_metaPaths_segment hseg)]
        · intro fragment hfrag
          rw [hfs, if_pos (mem_metaPaths_fragment hseg hfrag)]
      · intro q hq
        rw [hfs]
        by_cases hmem : q ∈ metaPaths savedir fmeta.SegmentList
        · left; rw [if_pos hmem]
        · right
          rw [if_neg hmem, download_frame env savedir cipher fmeta _ q st1 hq hmem, hfs1]
          simp [fsWrite, hq, initState]
      · intro hnone
        rw [hfm] at hnone
        cases hnone

theorem retrieve_file_removes_temporaries_witness :
    (retrieve_file sampleEnv ∅ emptyFS "f4" "d" "").out = .ret "" (some "too few shards given") ∧
    (retrieve_file sampleEnv ∅ emptyFS "f4" "d" "").st.fs (Join "d" "s1") = none ∧
    (retrieve_file sampleEnv ∅ emptyFS "f4" "d" "").st.fs (Join "d" "zero") = none :=
  ⟨by decide,
   ((retrieve_file_removes_temporaries sampleEnv ∅ emptyFS "f4" "d" "").1 sampleMeta4
      (by rfl) _ (List.mem_cons_self _ _)).1,
   ((retrieve_file_removes_temporaries sampleEnv ∅ emptyFS "f4" "d" "").1 sampleMeta4
      (by rfl) _ (List.mem_cons_self _ _)).2 ⟨"zero", "m0"⟩ (by simp)⟩

/-- C4, counterexample: with an empty lease set and an empty file system, the
request for `f4` fails in the erasure reconstruction (two of three shards are
unavailable) and the request for `nofile` fails in the metadata lookup; both
return an error, and in both cases a file exists at `savedir/fid` on return. -/
theorem retrieve_file_error_leaves_destination :
    "f4" ∉ (∅ : Finset String) ∧ emptyFS (Join "d" "f4") = none ∧
    (retrieve_file sampleEnv ∅ emptyFS "f4" "d" "").out = .ret "" (some "too few shards given") ∧
    (retrieve_file sampleEnv ∅ emptyFS "f4" "d" "").st.fs (Join "d" "f4") ≠ none ∧
    (retrieve_file sampleEnv ∅ emptyFS "nofile" "d" "").out = .ret "" (some "file not found") ∧
    (retrieve_file sampleEnv ∅ emptyFS "nofile" "d" "").st.fs (Join "d" "nofile") ≠ none := by
  decide

/-- A failed metadata lookup, and every stop of the download and reconstruction
loop (a failed miner query, a failed `RSRestore`, a panic), ends the call with
that outcome before any segment has been written: `writecount` is 0. -/
theorem retrieve_file_early_stop (env : Env) (retrieve_files : Finset String)
    (fs : FS) (fid savedir cipher : String) (h : fid ∉ retrieve_files)
    (hnf : fs (Join savedir fid) = none)
    (hc : ∀ s, env.Create s (Join savedir fid) = none) :
    (∀ err, (∀ s, env.QueryFile s fid = .error err) →
      (retrieve_file env retrieve_files fs fid savedir cipher).out = .ret "" (some err) ∧
      (retrieve_file env retrieve_files fs fid savedir cipher).st.writecount = 0) ∧
    (∀ fmeta out st1, (∀ s, env.QueryFile s fid = .ok fmeta) →
      segmentLoop env savedir fmeta.SegmentList (downloadStart env fs fid savedir fmeta)
        = .stop out st1 →
      (retrieve_file env retrieve_files fs fid savedir cipher).out = out ∧
      (retrieve_file env retrieve_files fs fid savedir cipher).st.writecount = 0) := by
  constructor
  · intro err hq
    unfold retrieve_file
    simp only [if_neg h]
    unfold retrieveBody
    simp only [initState, State.log, State.setFs, hnf, hc, hq, List.nil_append,
      List.cons_append]
    simp [Ctl.defer, Ctl.state, State.log]
  · intro fmeta out st1 hq hstop
    have hw : st1.writecount = 0 := by
      have := (segmentLoop_locals env savedir fmeta.SegmentList
        (downloadStart env fs fid savedir fmeta)).2
      rw [hstop] at this
      exact this
    have hd : download env savedir cipher fmeta (Join savedir fid)
        { fs := fsWrite fs (Join savedir fid) []
          trace := [.Stat (Join savedir fid), .MkdirAll savedir, .Create (Join savedir fid),
            .QueryFile fid]
          fmeta := some fmeta
          fragmentpaths := []
          segmentspath := []
          writecount := 0 } = .stop out st1 := by
      unfold download
      simp only
      have e := hstop
      unfold downloadStart at e
      rw [e]
    unfold retrieve_file
    simp only [if_neg h]
    unfold retrieveBody
    simp only [initState, State.log, State.setFs, hnf, hc, hq, List.nil_append,
      List.cons_append]
    simp only [Bool.false_eq_true, if_false]
    rw [hd]
    simp only [Ctl.defer, Ctl.state, State.log]
    exact ⟨trivial, by rw [(cleanup_locals _ _ _).2]; exact hw⟩

/-- C4, amended: a call that acquires the lease, finds no file at
`savedir/fid`, can create the destination, and returns before any segment has
been written to it (`writecount` is still 0, as on every metadata-lookup,
miner-query and reconstruction error), leaves an empty file at `savedir/fid`,
provided `fid` is not the hash of a segment or fragment of the metadata. -/
theorem retrieve_file_unwritten_destination (env : Env) (retrieve_files : Finset String)
    (fs : FS) (fid savedir cipher : String) (h : fid ∉ retrieve_files)
    (hnf : fs (Join savedir fid) = none)
    (hc : ∀ s, env.Create s (Join savedir fid) = none)
    (hd : ∀ fmeta, (retrieve_file env retrieve_files fs fid savedir cipher).st.fmeta = some fmeta →
      ∀ segment ∈ fmeta.SegmentList, segment.Hash ≠ fid ∧
        ∀ fragment ∈ segment.FragmentList, fragment.Hash ≠ fid)
    (hw : (retrieve_file env retrieve_files fs fid savedir cipher).st.writecount = 0) :
    (retrieve_file env retrieve_files fs fid savedir cipher).st.fs (Join savedir fid) = some [] := by
  unfold retrieve_file at hd hw ⊢
  simp only [if_neg h] at hd hw ⊢
  rcases retrieveBody_shape env fid savedir cipher (initState fs) with
    ⟨⟨b, hb, _⟩, _⟩ | ⟨⟨s, err, he⟩, _⟩ | ⟨hfs, _, _⟩ | ⟨fmeta, st1, hfs1, hm1, hw1, hs⟩
  · simp [initState, hnf] at hb
  · simp [hc] at he
  · rw [hfs]; simp [fsWrite]
  · rw [hs] at hd hw ⊢
    have hfm : ((cleanup savedir fmeta
        (download env savedir cipher fmeta (Join savedir fid) st1).state).log
        (.Close (Join savedir fid))).fmeta = some fmeta := by
      simp only [State.log]
      rw [(cleanup_locals _ _ _).1, download_fmeta, hm1]
    have hum : Join savedir fid ∉ metaPaths savedir fmeta.SegmentList :=
      not_mem_metaPaths (hd fmeta hfm)
    simp only [State.log] at hw ⊢
    rw [(cleanup_locals _ _ _).2] at hw
    rw [cleanup_fs, if_neg hum, download_unwritten env savedir cipher fmeta _ st1 hum hw, hfs1]
    simp [fsWrite]

theorem retrieve_file_unwritten_destination_witness :
    (retrieve_file sampleEnv ∅ emptyFS "f4" "d" "").out = .ret "" (some "too few shards given") ∧
    (retrieve_file sampleEnv ∅ emptyFS "f4" "d" "").st.fs (Join "d" "f4") = some [] :=
  ⟨by decide,
   retrieve_file_unwritten_destination sampleEnv ∅ emptyFS "f4" "d" "" (by decide) (by decide)
     (fun _ => rfl) (by
       intro fmeta hf
       have h4 : (retrieve_file sampleEnv ∅ emptyFS "f4" "d" "").st.fmeta = some sampleMeta4 := by
         rfl
       rw [h4] at hf
       cases hf
       decide) (by decide)⟩

/-! ## Assembly: what is written -/

theorem lastBound_eq (env : Env) (fmeta : FileMetadata) (w : Nat)
    (hS : fmeta.FileSize < 2 ^ 64) (hle : w * env.SegmentSize ≤ fmeta.FileSize) :
    lastBound env fmeta w = fmeta.FileSize - w * env.SegmentSize := by
  unfold lastBound
  generalize w * env.SegmentSize = x at hle ⊢
  generalize fmeta.FileSize = s at hS hle ⊢
  have h1 : s % 2 ^ 64 = s := Nat.mod_eq_of_lt hS
  have h2 : x % 2 ^ 64 = x := Nat.mod_eq_of_lt (lt_of_le_of_lt hle hS)
  rw [h1, h2]
  have h3 : s + 2 ^ 64 - x = (s - x) + 2 ^ 64 := by omega
  rw [h3, Nat.add_mod_right]
  exact Nat.mod_eq_of_lt (lt_of_le_of_lt (Nat.sub_le _ _) hS)

theorem writeBody_ok (env : Env) (cipher : String) (fmeta : FileMetadata) (userfile p : String)
    (st : State) (c d : Bytes)
    (hrd : ∀ s q, env.ReadFileErr s q = none)
    (hfs : st.fs p = some c) (hdec : decode env cipher c = .ok d)
    (hb : st.writecount + 1 ≥ fmeta.SegmentList.length →
      lastBound env fmeta st.writecount ≤ d.length) :
    ∃ st1, writeBody env cipher fmeta userfile p st = .next st1 ∧
      st1.writecount = st.writecount + 1 ∧
      st1.fs = fsAppend st.fs userfile
        (if st.writecount + 1 ≥ fmeta.SegmentList.length
          then d.take (lastBound env fmeta st.writecount) else d) := by
  unfold writeBody
  simp only [osReadFile, State.log, hfs, hrd]
  unfold decode at hdec
  unfold writeDecoded writeSegment
  by_cases hc : cipher ≠ ""
  · simp only [if_pos hc] at hdec ⊢
    simp only [hdec, State.log]
    by_cases hl : st.writecount + 1 ≥ fmeta.SegmentList.length
    · have hb2 := hb hl
      simp [hl, hb2, fWrite, State.log, State.setFs]
    · simp [hl, fWrite, State.log, State.setFs]
  · simp only [if_neg hc] at hdec ⊢
    cases hdec
    by_cases hl : st.writecount + 1 ≥ fmeta.SegmentList.length
    · have hb2 := hb hl
      simp [hl, hb2, fWrite, State.log, State.setFs]
    · simp [hl, fWrite, State.log, State.setFs]

theorem segmentBytes_congr (env : Env) (cipher : String) (fs1 fs2 : FS) (p : String)
    (h : fs1 p = fs2 p) : segmentBytes env cipher fs1 p = segmentBytes env cipher fs2 p := by
  simp [segmentBytes, h]

theorem assembled_cons (bound : Nat) (d : Bytes) (ds : List Bytes) :
    assembled bound (d :: ds) = (if ds = [] then d.take bound else d) ++ assembled bound ds := by
  cases ds with
  | nil => simp [assembled]
  | cons e es => simp [assembled]

theorem writeLoop_ok (env : Env) (cipher : String) (fmeta : FileMetadata) (userfile : String)
    (hrd : ∀ s q, env.ReadFileErr s q = none) :
    ∀ (ps : List String) (st : State) (c0 : Bytes),
      st.writecount + ps.length = fmeta.SegmentList.length →
      userfile ∉ ps →
      st.fs userfile = some c0 →
      (∀ p ∈ ps, ∃ c d, st.fs p = some c ∧ decode env cipher c = .ok d) →
      (∀ p, ps.getLast? = some p →
        lastBound env fmeta (fmeta.SegmentList.length - 1) ≤
          (segmentBytes env cipher st.fs p).length) →
      ∃ st1, writeLoop env cipher fmeta userfile ps st = .next st1 ∧
        st1.writecount = fmeta.SegmentList.length ∧
        st1.fs userfile = some (c0 ++ assembled
          (lastBound env fmeta (fmeta.SegmentList.length - 1))
          (ps.map (segmentBytes env cipher st.fs))) ∧
        ∀ q, q ≠ userfile → st1.fs q = st.fs q := by
  intro ps
  induction ps with
  | nil =>
    intro st c0 hn _ hu _ _
    exact ⟨st, rfl, by simpa using hn, by simp [assembled, hu], fun _ _ => rfl⟩
  | cons p rest ih =>
    intro st c0 hn hnot hu hread hlast
    obtain ⟨c, d, hc, hd⟩ := hread p (List.mem_cons_self _ _)
    have hsb : segmentBytes env cipher st.fs p = d := by simp [segmentBytes, hc, hd]
    have hpu : p ≠ userfile := fun e => hnot (e ▸ List.mem_cons_self _ _)
    have hur : userfile ∉ rest := fun e => hnot (List.mem_cons_of_mem _ e)
    simp only [List.length_cons] at hn
    have hb : st.writecount + 1 ≥ fmeta.SegmentList.length →
        lastBound env fmeta st.writecount ≤ d.length := by
      intro hge
      have hr : rest = [] := List.length_eq_zero.1 (by omega)
      have hw : st.writecount = fmeta.SegmentList.length - 1 := by omega
      rw [hw, ← hsb]
      exact hlast p (by simp [hr])
    obtain ⟨st1, hst1, hw1, hfs1⟩ :=
      writeBody_ok env cipher fmeta userfile p st c d hrd hc hd hb
    have hframe : ∀ q, q ≠ userfile → st1.fs q = st.fs q := by
      intro q hq; rw [hfs1]; simp [fsAppend, hq]
    have hmap : rest.map (segmentBytes env cipher st1.fs) =
        rest.map (segmentBytes env cipher st.fs) := by
      apply List.map_congr_left
      intro q hq
      exact segmentBytes_congr env cipher _ _ q (hframe q (fun e => hur (e ▸ hq)))
    have hu1 : st1.fs userfile = some (c0 ++
        (if st.writecount + 1 ≥ fmeta.SegmentList.length
          then d.take (lastBound env fmeta st.writecount) else d)) := by
      rw [hfs1]; simp [fsAppend, hu]
    obtain ⟨st2, hst2, hw2, hfs2, hfr2⟩ := ih st1 _ (by omega) hur hu1
      (by
        intro q hq
        obtain ⟨c', d', hc', hd'⟩ := hread q (List.mem_cons_of_mem _ hq)
        exact ⟨c', d', by rw [hframe q (fun e => hur (e ▸ hq))]; exact hc', hd'⟩)
      (by
        intro q hq
        have hqr : q ∈ rest := List.mem_of_getLast?_eq_some hq
        rw [segmentBytes_congr env cipher st1.fs st.fs q (hframe q (fun e => hur (e ▸ hqr)))]
        apply hlast q
        cases rest with
        | nil => simp at hq
        | cons r rs => simpa [List.getLast?_cons_cons] using hq)
    have hiff : (st.writecount + 1 ≥ fmeta.SegmentList.length) ↔
        rest.map (segmentBytes env cipher st.fs) = [] := by
      rw [List.map_eq_nil_iff, ← List.length_eq_zero]
      omega
    have hbuf : (if st.writecount + 1 ≥ fmeta.SegmentList.length
          then d.take (lastBound env fmeta st.writecount) else d) =
        (if rest.map (segmentBytes env cipher st.fs) = []
          then d.take (lastBound env fmeta (fmeta.SegmentList.length - 1)) else d) := by
      by_cases hge : st.writecount + 1 ≥ fmeta.SegmentList.length
      · have hw : st.writecount = fmeta.SegmentList.length - 1 := by omega
        rw [if_pos hge, if_pos (hiff.1 hge), hw]
      · rw [if_neg hge, if_neg (fun e => hge (hiff.2 e))]
    refine ⟨st2, ?_, hw2, ?_, ?_⟩
    · simp only [writeLoop, hst1]; exact hst2
    · rw [hfs2, hmap, List.map_cons, assembled_cons, hsb, hbuf, List.append_assoc]
    · intro q hq
      rw [hfr2 q hq, hframe q hq]

theorem fragmentBody_segmentspath (env : Env) (savedir : String) (k : Nat)
    (fragment : FragmentInfo) (st : State) :
    (fragmentBody env savedir k fragment st).state.segmentspath = st.segmentspath := by
  unfold fragmentBody
  simp only
  split
  · split
    · split
      · simp [Ctl.state, State.log]
      · split
        · simp [Ctl.state, State.log]
        · split <;> simp [Ctl.state, State.log, State.setFs]
    · split
      · simp [Ctl.state, State.log]
      · split <;> simp [Ctl.state, State.log, State.setFs]
  · simp [Ctl.state]

theorem segmentBody_next_segmentspath (env : Env) (savedir : String) (segment : SegmentInfo)
    (st st1 : State) (h : segmentBody env savedir segment st = .next st1) :
    st1.segmentspath = st.segmentspath ++ [Join savedir segment.Hash] := by
  have hl := fragmentLoop_preserves env savedir (fun s => s.segmentspath = st.segmentspath)
    segment.FragmentList
    (fun k f s _ hp => (fragmentBody_segmentspath env savedir k f s).trans hp) 0 st rfl
  unfold segmentBody at h
  cases hf : fragmentLoop env savedir 0 segment.FragmentList st with
  | stop out st2 => rw [hf] at h; cases h
  | next st2 =>
    rw [hf] at h hl
    simp only [Ctl.state] at hl
    simp only at h
    split at h
    · cases h
    · cases h
      simp [State.log, State.setFs, hl]

theorem segmentLoop_next_segmentspath (env : Env) (savedir : String) :
    ∀ (segs : List SegmentInfo) (st st1 : State),
      segmentLoop env savedir segs st = .next st1 →
      st1.segmentspath = st.segmentspath ++ segs.map fun segment => Join savedir segment.Hash := by
  intro segs
  induction segs with
  | nil => intro st st1 h; simp only [segmentLoop] at h; cases h; simp
  | cons segment rest ih =>
    intro st st1 h
    simp only [segmentLoop] at h
    cases hb : segmentBody env savedir segment st with
    | stop out st2 => rw [hb] at h; cases h
    | next st2 =>
      rw [hb] at h
      rw [ih st2 st1 h, segmentBody_next_segmentspath env savedir segment st st2 hb]
      simp

theorem assemble_ok (env : Env) (cipher : String) (fmeta : FileMetadata) (userfile : String)
    (st : State) (c0 : Bytes)
    (hrd : ∀ s q, env.ReadFileErr s q = none)
    (hlen : st.segmentspath.length = fmeta.SegmentList.length)
    (hnot : userfile ∉ st.segmentspath)
    (hu : st.fs userfile = some c0)
    (hread : ∀ p ∈ st.segmentspath, ∃ c d, st.fs p = some c ∧ decode env cipher c = .ok d)
    (hlast : ∀ p, st.segmentspath.getLast? = some p →
      lastBound env fmeta (fmeta.SegmentList.length - 1) ≤
        (segmentBytes env cipher st.fs p).length) :
    ∃ st1 e, assemble env cipher fmeta userfile st = .stop (.ret userfile e) st1 ∧
      st1.fs userfile = some (c0 ++ assembled
        (lastBound env fmeta (fmeta.SegmentList.length - 1))
        (st.segmentspath.map (segmentBytes env cipher st.fs))) ∧
      ∀ q, q ≠ userfile → st1.fs q = st.fs q := by
  obtain ⟨st1, h1, hw, hfs, hfr⟩ := writeLoop_ok env cipher fmeta userfile hrd st.segmentspath
    { st with writecount := 0 } c0 (by simpa using hlen) hnot hu hread hlast
  refine ⟨st1.log (.Sync userfile), env.Sync (st1.log (.Sync userfile)), ?_, ?_, ?_⟩
  · unfold assemble
    simp only [h1]
    simp [hw]
  · simpa [State.log] using hfs
  · intro q hq
    simpa [State.log] using hfr q hq

theorem retrieveBody_restored (env : Env) (fs : FS) (fid savedir cipher : String)
    (fmeta : FileMetadata) (st1 : State)
    (hnf : ∀ b, fs (Join savedir fid) = some b → b = [])
    (hc : ∀ s, env.Create s (Join savedir fid) = none)
    (hq : ∀ s, env.QueryFile s fid = .ok fmeta)
    (hres : segmentLoop env savedir fmeta.SegmentList (downloadStart env fs fid savedir fmeta)
      = .next st1) :
    retrieveBody env fid savedir cipher (initState fs) =
      Ctl.defer
        (Ctl.defer (assemble env cipher fmeta (Join savedir fid) st1) (cleanup savedir fmeta))
        (fun st => st.log (.Close (Join savedir fid))) := by
  have hlen : st1.segmentspath.length = fmeta.SegmentList.length := by
    rw [segmentLoop_next_segmentspath env savedir _ _ _ hres]
    simp [downloadStart]
  have hd : download env savedir cipher fmeta (Join savedir fid)
      { fs := fsWrite fs (Join savedir fid) []
        trace := [.Stat (Join savedir fid), .MkdirAll savedir, .Create (Join savedir fid),
          .QueryFile fid]
        fmeta := some fmeta
        fragmentpaths := []
        segmentspath := []
        writecount := 0 } = assemble env cipher fmeta (Join savedir fid) st1 := by
    unfold download
    simp only
    have e := hres
    unfold downloadStart at e
    rw [e]
    simp [hlen]
  have hfast : (match fs (Join savedir fid) with
      | some b => decide (b.length > 0)
      | none => false) = false := by
    cases hb : fs (Join savedir fid) with
    | none => rfl
    | some b => simp [hnf b hb]
  unfold retrieveBody
  simp only [initState, State.log, State.setFs, hfast, hc, hq, List.nil_append,
    List.cons_append]
  simp only [Bool.false_eq_true, if_false]
  rw [← hd]

/-- When the reconstruction phase completes in state `st1` and every segment
file can be read and decoded, the call returns the destination path and the
destination holds the decoded segments in metadata order, the last one cut at
the slice bound of lines 144 and 150. -/
theorem retrieve_file_assembles (env : Env) (retrieve_files : Finset String) (fs : FS)
    (fid savedir cipher : String) (fmeta : FileMetadata) (st1 : State)
    (h : fid ∉ retrieve_files)
    (hnf : ∀ b, fs (Join savedir fid) = some b → b = [])
    (hc : ∀ s, env.Create s (Join savedir fid) = none)
    (hq : ∀ s, env.QueryFile s fid = .ok fmeta)
    (hrd : ∀ s q, env.ReadFileErr s q = none)
    (hfid : ∀ segment ∈ fmeta.SegmentList, segment.Hash ≠ fid ∧
      ∀ fragment ∈ segment.FragmentList, fragment.Hash ≠ fid)
    (hres : segmentLoop env savedir fmeta.SegmentList (downloadStart env fs fid savedir fmeta)
      = .next st1)
    (hread : ∀ segment ∈ fmeta.SegmentList, ∃ c d,
      st1.fs (Join savedir segment.Hash) = some c ∧ decode env cipher c = .ok d)
    (hlast : ∀ segment, fmeta.SegmentList.getLast? = some segment →
      lastBound env fmeta (fmeta.SegmentList.length - 1) ≤
        (segmentBytes env cipher st1.fs (Join savedir segment.Hash)).length) :
    ∃ e, (retrieve_file env retrieve_files fs fid savedir cipher).out
        = .ret (Join savedir fid) e ∧
      (retrieve_file env retrieve_files fs fid savedir cipher).st.fs (Join savedir fid) =
        some (assembled (lastBound env fmeta (fmeta.SegmentList.length - 1))
          (fmeta.SegmentList.map fun segment =>
            segmentBytes env cipher st1.fs (Join savedir segment.Hash))) := by
  have hpaths : st1.segmentspath =
      fmeta.SegmentList.map fun segment => Join savedir segment.Hash := by
    rw [segmentLoop_next_segmentspath env savedir _ _ _ hres]
    simp [downloadStart]
  have hum : Join savedir fid ∉ metaPaths savedir fmeta.SegmentList := not_mem_metaPaths hfid
  have hu : st1.fs (Join savedir fid) = some [] := by
    have hk := segmentLoop_keeps env savedir fmeta.SegmentList
      (downloadStart env fs fid savedir fmeta) (Join savedir fid) (some []) (some fmeta) 0 hum
      ⟨by simp [downloadStart, fsWrite], rfl, rfl⟩
    rw [hres] at hk
    exact hk.1
  have hnot : Join savedir fid ∉ st1.segmentspath := by
    rw [hpaths, List.mem_map]
    rintro ⟨segment, hs, e⟩
    exact (hfid segment hs).1 (Join_inj e)
  obtain ⟨st2, e, ha, hfs2, _⟩ := assemble_ok env cipher fmeta (Join savedir fid) st1 [] hrd
    (by rw [hpaths, List.length_map]) hnot hu
    (by
      intro p hp
      rw [hpaths, List.mem_map] at hp
      obtain ⟨segment, hs, rfl⟩ := hp
      exact hread segment hs)
    (by
      intro p hp
      rw [hpaths, List.getLast?_map] at hp
      cases hl : fmeta.SegmentList.getLast? with
      | none => rw [hl] at hp; simp at hp
      | some segment =>
        rw [hl] at hp
        simp only [Option.map_some', Option.some.injEq] at hp
        rw [← hp]
        exact hlast segment hl)
  refine ⟨e, ?_, ?_⟩
  · unfold retrieve_file
    simp only [if_neg h]
    rw [retrieveBody_restored env fs fid savedir cipher fmeta st1 hnf hc hq hres, ha]
    rfl
  · unfold retrieve_file
    simp only [if_neg h]
    rw [retrieveBody_restored env fs fid savedir cipher fmeta st1 hnf hc hq hres, ha]
    simp only [Ctl.defer, Ctl.state, State.log]
    rw [cleanup_fs, if_neg hum, hfs2, hpaths, List.map_map]
    rfl

/-! ## The assembled bytes -/

theorem assembled_eq_dropLast (bound : Nat) (ds : List Bytes) :
    assembled bound ds = ds.dropLast.flatten ++ (ds.getLast?.getD []).take bound := by
  induction ds with
  | nil => simp [assembled]
  | cons d rest ih =>
    cases rest with
    | nil => simp [assembled]
    | cons e es =>
      rw [assembled_cons, if_neg (by simp), ih]
      simp

theorem assembled_eq_take (bound K : Nat) (ds : List Bytes) (hne : ds ≠ [])
    (hK : ∀ d ∈ ds, d.length = K) :
    assembled bound ds = ds.flatten.take ((ds.length - 1) * K + bound) := by
  induction ds with
  | nil => exact absurd rfl hne
  | cons d rest ih =>
    have hd : d.length = K := hK d (List.mem_cons_self _ _)
    by_cases hr : rest = []
    · subst hr
      simp [assembled]
    · have hpos : 1 ≤ rest.length := List.length_pos.2 hr
      rw [assembled_cons, if_neg hr, ih hr (fun x hx => hK x (List.mem_cons_of_mem _ hx))]
      have h1 : (List.length (d :: rest) - 1) * K + bound =
          K + ((rest.length - 1) * K + bound) := by
        simp only [List.length_cons, Nat.add_sub_cancel]
        obtain ⟨r, hr2⟩ : ∃ r, rest.length = r + 1 := ⟨rest.length - 1, by omega⟩
        rw [hr2, Nat.add_sub_cancel, Nat.add_mul]
        omega
      rw [h1, List.flatten_cons, ← hd, List.take_append]

theorem assembled_length (bound : Nat) (ds : List Bytes)
    (hb : bound ≤ (ds.getLast?.getD []).length) :
    (assembled bound ds).length = (ds.dropLast.map List.length).sum + bound := by
  rw [assembled_eq_dropLast, List.length_append, List.length_flatten, List.length_take]
  omega

theorem segmentBytes_plain (env : Env) (fs : FS) (p : String) :
    segmentBytes env "" fs p = (fs p).getD [] := by
  unfold segmentBytes decode
  cases fs p <;> simp

/-- The last segment's share `S - (n-1)*K` of a file of `S` bytes in `n` segments of `K` bytes. -/
theorem last_share (S K m : Nat) (hlo : m * K ≤ S) (hhi : S ≤ (m + 1) * K) :
    (S - m * K = S % K ∨ (K ∣ S ∧ S - m * K = K)) ∧
    (¬ K ∣ S → S - m * K = S % K) ∧
    (K ∣ S → m * K < S → S - m * K = K) := by
  rw [Nat.add_mul, Nat.one_mul] at hhi
  have hmod : S % K = (S - m * K) % K := by
    conv_lhs => rw [← Nat.sub_add_cancel hlo]
    exact Nat.add_mul_mod_self_right _ _ _
  by_cases hr : S - m * K = K
  · have hdvd : K ∣ S := by
      have : S = (m + 1) * K := by rw [Nat.add_mul, Nat.one_mul]; omega
      exact this ▸ Nat.dvd_mul_left _ _
    exact ⟨Or.inr ⟨hdvd, hr⟩, fun h => absurd hdvd h, fun _ _ => hr⟩
  · have hlt : S - m * K < K := by omega
    have hm : S % K = S - m * K := by rw [hmod]; exact Nat.mod_eq_of_lt hlt
    refine ⟨Or.inl hm.symm, fun _ => hm.symm, ?_⟩
    intro hdvd hpos
    have h0 : S % K = 0 := Nat.mod_eq_zero_of_dvd hdvd
    omega

theorem Ctl.eq_next_of_isNext (c : Ctl) (h : c.isNext = true) : c = .next c.state := by
  cases c with
  | next st => rfl
  | stop out st => cases h

theorem segmentBytes_cipher (env : Env) (cipher : String) (fs : FS) (p : String)
    (hc : cipher ≠ "") :
    segmentBytes env cipher fs p = (decrypted env cipher fs p).getD [] := by
  unfold segmentBytes decode decrypted
  cases fs p with
  | none => rfl
  | some c =>
    simp only [if_pos hc]
    cases env.AesCbcDecrypt c cipher <;> rfl

/-- C1: with an empty cipher (and no non-empty file at the destination
beforehand), when the reconstruction phase has left every
segment file with exactly `K = SegmentSize` bytes and the file size `S`
satisfies `(n-1)*K ≤ S ≤ n*K` for the `n ≥ 1` segments of the metadata, the
call returns the destination path and the destination holds exactly the first
`S` bytes of the segment contents concatenated in `SegmentList` order: `S`
bytes in all, the last segment contributing its first `S - (n-1)*K` bytes,
which is `S mod K`, or `K` when `K` divides `S`. -/
theorem retrieve_file_truncation (env : Env) (retrieve_files : Finset String) (fs : FS)
    (fid savedir : String) (fmeta : FileMetadata) (st1 : State)
    (h : fid ∉ retrieve_files)
    (hnf : ∀ b, fs (Join savedir fid) = some b → b = [])
    (hc : ∀ s, env.Create s (Join savedir fid) = none)
    (hq : ∀ s, env.QueryFile s fid = .ok fmeta)
    (hrd : ∀ s q, env.ReadFileErr s q = none)
    (hfid : ∀ segment ∈ fmeta.SegmentList, segment.Hash ≠ fid ∧
      ∀ fragment ∈ segment.FragmentList, fragment.Hash ≠ fid)
    (hres : segmentLoop env savedir fmeta.SegmentList (downloadStart env fs fid savedir fmeta)
      = .next st1)
    (hn : 1 ≤ fmeta.SegmentList.length)
    (hS : fmeta.FileSize < 2 ^ 64)
    (hlo : (fmeta.SegmentList.length - 1) * env.SegmentSize ≤ fmeta.FileSize)
    (hhi : fmeta.FileSize ≤ fmeta.SegmentList.length * env.SegmentSize)
    (hK : ∀ segment ∈ fmeta.SegmentList,
      (st1.fs (Join savedir segment.Hash)).map List.length = some env.SegmentSize) :
    (∃ e, (retrieve_file env retrieve_files fs fid savedir "").out = .ret (Join savedir fid) e) ∧
    (retrieve_file env retrieve_files fs fid savedir "").st.fs (Join savedir fid) =
      some ((segmentContents st1.fs savedir fmeta).flatten.take fmeta.FileSize) ∧
    ((segmentContents st1.fs savedir fmeta).flatten.take fmeta.FileSize).length
      = fmeta.FileSize ∧
    (segmentContents st1.fs savedir fmeta).flatten.take fmeta.FileSize =
      (segmentContents st1.fs savedir fmeta).dropLast.flatten ++
        ((segmentContents st1.fs savedir fmeta).getLast?.getD []).take
          (fmeta.FileSize - (fmeta.SegmentList.length - 1) * env.SegmentSize) ∧
    (fmeta.FileSize - (fmeta.SegmentList.length - 1) * env.SegmentSize
        = fmeta.FileSize % env.SegmentSize ∨
      (env.SegmentSize ∣ fmeta.FileSize ∧
        fmeta.FileSize - (fmeta.SegmentList.length - 1) * env.SegmentSize
          = env.SegmentSize)) := by
  have hcont : (fmeta.SegmentList.map fun segment =>
      segmentBytes env "" st1.fs (Join savedir segment.Hash)) =
      segmentContents st1.fs savedir fmeta := by
    unfold segmentContents
    apply List.map_congr_left
    intro segment _
    exact segmentBytes_plain env st1.fs _
  have hlenK : ∀ d ∈ segmentContents st1.fs savedir fmeta, d.length = env.SegmentSize := by
    intro d hd
    unfold segmentContents at hd
    rw [List.mem_map] at hd
    obtain ⟨segment, hs, rfl⟩ := hd
    have := hK segment hs
    cases hf : st1.fs (Join savedir segment.Hash) with
    | none => rw [hf] at this; cases this
    | some c => rw [hf] at this; simpa using this
  have hclen : (segmentContents st1.fs savedir fmeta).length = fmeta.SegmentList.length := by
    simp [segmentContents]
  have hne : segmentContents st1.fs savedir fmeta ≠ [] := by
    intro e; rw [e] at hclen; simp at hclen; omega
  have hbound := lastBound_eq env fmeta (fmeta.SegmentList.length - 1) hS hlo
  have hnK : fmeta.SegmentList.length * env.SegmentSize =
      (fmeta.SegmentList.length - 1) * env.SegmentSize + env.SegmentSize := by
    conv_lhs => rw [← Nat.sub_add_cancel hn, Nat.add_mul, Nat.one_mul]
  have hshare := last_share fmeta.FileSize env.SegmentSize (fmeta.SegmentList.length - 1) hlo
    (by rw [Nat.sub_add_cancel hn]; exact hhi)
  have hsum : (fmeta.SegmentList.length - 1) * env.SegmentSize +
      (fmeta.FileSize - (fmeta.SegmentList.length - 1) * env.SegmentSize) = fmeta.FileSize := by
    omega
  have hass : assembled (fmeta.FileSize - (fmeta.SegmentList.length - 1) * env.SegmentSize)
      (segmentContents st1.fs savedir fmeta) =
      (segmentContents st1.fs savedir fmeta).flatten.take fmeta.FileSize := by
    rw [assembled_eq_take _ env.SegmentSize _ hne hlenK, hclen, hsum]
  obtain ⟨e, hout, hfs⟩ := retrieve_file_assembles env retrieve_files fs fid savedir ""
    fmeta st1 h hnf hc hq hrd hfid hres
    (by
      intro segment hs
      have := hK segment hs
      cases hf : st1.fs (Join savedir segment.Hash) with
      | none => rw [hf] at this; cases this
      | some c => exact ⟨c, c, rfl, by simp [decode]⟩)
    (by
      intro segment hs
      rw [hbound, segmentBytes_plain]
      have hmem : segment ∈ fmeta.SegmentList := List.mem_of_getLast?_eq_some hs
      have := hK segment hmem
      cases hf : st1.fs (Join savedir segment.Hash) with
      | none => rw [hf] at this; cases this
      | some c =>
        rw [hf] at this
        simp only [Option.map_some', Option.some.injEq] at this
        simp only [Option.getD_some, this]
        omega)
  rw [hcont, hbound, hass] at hfs
  refine ⟨⟨e, hout⟩, hfs, ?_, ?_, hshare.1⟩
  · rw [List.length_take, List.length_flatten]
    have hsumK : ((segmentContents st1.fs savedir fmeta).map List.length).sum =
        fmeta.SegmentList.length * env.SegmentSize := by
      rw [← hclen]
      have : (segmentContents st1.fs savedir fmeta).map List.length =
          List.replicate (segmentContents st1.fs savedir fmeta).length env.SegmentSize := by
        rw [List.eq_replicate_iff]
        refine ⟨by simp, ?_⟩
        intro b hb
        rw [List.mem_map] at hb
        obtain ⟨d, hd, rfl⟩ := hb
        exact hlenK d hd
      rw [this, List.sum_replicate, smul_eq_mul]
    rw [hsumK]
    omega
  · rw [← hass, assembled_eq_dropLast]

theorem retrieve_file_truncation_witness :
    (sampleMeta2.SegmentList.length - 1) * sampleEnv.SegmentSize ≤ sampleMeta2.FileSize ∧
    sampleMeta2.FileSize ≤ sampleMeta2.SegmentList.length * sampleEnv.SegmentSize ∧
    (retrieve_file sampleEnv ∅ emptyFS "f2" "d" "").st.fs (Join "d" "f2")
      = some [1, 2, 3, 4, 5, 6] :=
  ⟨by decide, by decide,
   (retrieve_file_truncation sampleEnv ∅ emptyFS "f2" "d" sampleMeta2
      (segmentLoop sampleEnv "d" sampleMeta2.SegmentList
        (downloadStart sampleEnv emptyFS "f2" "d" sampleMeta2)).state
      (by decide) (by decide) (fun _ => rfl) (fun _ => rfl) (fun _ _ => rfl) (by decide)
      (Ctl.eq_next_of_isNext _ (by decide)) (by decide) (by decide) (by decide) (by decide)
      (by decide)).2.1.trans (by decide)⟩

/-- C9, the code at the failing input: the two-segment file `f2` (6 bytes,
segments of 4 bytes) retrieved with a cipher whose decryption strips one
padding byte per segment, as padded CBC does.  The call succeeds; the first
decrypted segment contributes 3 bytes, and line 144 cuts the last one at
`6 - 1*4 = 2` bytes, not at the `6 - 3 = 3` bytes that remain, so the output
has 5 bytes, not the 6 of the file size.  Cutting at the bytes that remain, as
the plain branch in effect does, would have given the 6 bytes. -/
theorem retrieve_file_cipher_short_output :
    (retrieve_file sampleEnv ∅ emptyFS "f2" "d" "k").out = .ret (Join "d" "f2") none ∧
    decryptedSegments sampleEnv "k"
      (segmentLoop sampleEnv "d" sampleMeta2.SegmentList
        (downloadStart sampleEnv emptyFS "f2" "d" sampleMeta2)).state.fs "d" sampleMeta2
      = [[1, 2, 3], [5, 6, 7]] ∧
    (retrieve_file sampleEnv ∅ emptyFS "f2" "d" "k").st.fs (Join "d" "f2")
      = some ([1, 2, 3] ++ [5, 6]) ∧
    ([5, 6] : Bytes).length ≠ sampleMeta2.FileSize - ([1, 2, 3] : Bytes).length ∧
    (([1, 2, 3] ++ [5, 6] : Bytes)).length ≠ sampleMeta2.FileSize ∧
    (([1, 2, 3] : Bytes) ++
      ([5, 6, 7] : Bytes).take (sampleMeta2.FileSize - ([1, 2, 3] : Bytes).length)).length
      = sampleMeta2.FileSize := by
  decide

/-- What the cipher branch writes in general, when every segment decrypts and
the slice bound stays within the last decrypted buffer: each earlier decrypted
segment whole, then the first `totalFileSize - (n-1)*SegmentSize` bytes of the
last one.  The offset counts segments, not bytes written, so the output has
`totalFileSize` bytes only when the earlier decrypted segments total
`(n-1)*SegmentSize` bytes; whatever the decryption removed from them is
missing from the output. -/
theorem retrieve_file_cipher_truncation (env : Env) (retrieve_files : Finset String) (fs : FS)
    (fid savedir cipher : String) (fmeta : FileMetadata) (st1 : State)
    (h : fid ∉ retrieve_files)
    (hnf : ∀ b, fs (Join savedir fid) = some b → b = [])
    (hc : ∀ s, env.Create s (Join savedir fid) = none)
    (hq : ∀ s, env.QueryFile s fid = .ok fmeta)
    (hrd : ∀ s q, env.ReadFileErr s q = none)
    (hfid : ∀ segment ∈ fmeta.SegmentList, segment.Hash ≠ fid ∧
      ∀ fragment ∈ segment.FragmentList, fragment.Hash ≠ fid)
    (hres : segmentLoop env savedir fmeta.SegmentList (downloadStart env fs fid savedir fmeta)
      = .next st1)
    (hcipher : cipher ≠ "")
    (hS : fmeta.FileSize < 2 ^ 64)
    (hlo : (fmeta.SegmentList.length - 1) * env.SegmentSize ≤ fmeta.FileSize)
    (hdec : ∀ segment ∈ fmeta.SegmentList,
      (decrypted env cipher st1.fs (Join savedir segment.Hash)).isSome = true)
    (hlast : fmeta.FileSize - (fmeta.SegmentList.length - 1) * env.SegmentSize ≤
      ((decryptedSegments env cipher st1.fs savedir fmeta).getLast?.getD []).length) :
    (∃ e, (retrieve_file env retrieve_files fs fid savedir cipher).out
      = .ret (Join savedir fid) e) ∧
    (retrieve_file env retrieve_files fs fid savedir cipher).st.fs (Join savedir fid) =
      some ((decryptedSegments env cipher st1.fs savedir fmeta).dropLast.flatten ++
        ((decryptedSegments env cipher st1.fs savedir fmeta).getLast?.getD []).take
          (fmeta.FileSize - (fmeta.SegmentList.length - 1) * env.SegmentSize)) ∧
    ((decryptedSegments env cipher st1.fs savedir fmeta).dropLast.flatten ++
        ((decryptedSegments env cipher st1.fs savedir fmeta).getLast?.getD []).take
          (fmeta.FileSize - (fmeta.SegmentList.length - 1) * env.SegmentSize)).length =
      ((decryptedSegments env cipher st1.fs savedir fmeta).dropLast.map List.length).sum +
        (fmeta.FileSize - (fmeta.SegmentList.length - 1) * env.SegmentSize) ∧
    (((decryptedSegments env cipher st1.fs savedir fmeta).dropLast.map List.length).sum =
        (fmeta.SegmentList.length - 1) * env.SegmentSize →
      ((decryptedSegments env cipher st1.fs savedir fmeta).dropLast.flatten ++
        ((decryptedSegments env cipher st1.fs savedir fmeta).getLast?.getD []).take
          (fmeta.FileSize - (fmeta.SegmentList.length - 1) * env.SegmentSize)).length =
        fmeta.FileSize) := by
  have hcont : (fmeta.SegmentList.map fun segment =>
      segmentBytes env cipher st1.fs (Join savedir segment.Hash)) =
      decryptedSegments env cipher st1.fs savedir fmeta := by
    unfold decryptedSegments
    apply List.map_congr_left
    intro segment _
    exact segmentBytes_cipher env cipher st1.fs _ hcipher
  have hbound := lastBound_eq env fmeta (fmeta.SegmentList.length - 1) hS hlo
  obtain ⟨e, hout, hfs⟩ := retrieve_file_assembles env retrieve_files fs fid savedir cipher
    fmeta st1 h hnf hc hq hrd hfid hres
    (by
      intro segment hs
      have := hdec segment hs
      unfold decrypted at this
      cases hf : st1.fs (Join savedir segment.Hash) with
      | none => rw [hf] at this; cases this
      | some c =>
        rw [hf] at this
        simp only at this
        cases hd : env.AesCbcDecrypt c cipher with
        | error err => rw [hd] at this; cases this
        | ok d => exact ⟨c, d, rfl, by simp [decode, hcipher, hd]⟩)
    (by
      intro segment hs
      rw [hbound, segmentBytes_cipher env cipher st1.fs _ hcipher]
      have hl : (decryptedSegments env cipher st1.fs savedir fmeta).getLast? =
          some ((decrypted env cipher st1.fs (Join savedir segment.Hash)).getD []) := by
        unfold decryptedSegments
        rw [List.getLast?_map, hs]
        rfl
      rw [hl] at hlast
      exact hlast)
  rw [hcont, hbound, assembled_eq_dropLast] at hfs
  have hlen := assembled_length
    (fmeta.FileSize - (fmeta.SegmentList.length - 1) * env.SegmentSize)
    (decryptedSegments env cipher st1.fs savedir fmeta) hlast
  rw [assembled_eq_dropLast] at hlen
  refine ⟨⟨e, hout⟩, hfs, hlen, ?_⟩
  intro hsum
  rw [hlen, hsum]
  omega

theorem retrieve_file_cipher_truncation_witness :
    (retrieve_file sampleEnv ∅ emptyFS "f2" "d" "k").st.fs (Join "d" "f2")
      = some [1, 2, 3, 5, 6] :=
  (retrieve_file_cipher_truncation sampleEnv ∅ emptyFS "f2" "d" "k" sampleMeta2
      (segmentLoop sampleEnv "d" sampleMeta2.SegmentList
        (downloadStart sampleEnv emptyFS "f2" "d" sampleMeta2)).state
      (by decide) (by decide) (fun _ => rfl) (fun _ => rfl) (fun _ _ => rfl) (by decide)
      (Ctl.eq_next_of_isNext _ (by decide)) (by decide) (by decide) (by decide) (by decide)
      (by decide)).2.1.trans (by decide)

/-! ## Fragments -/

/-- C7, counterexample: a stale one-byte file already sits at the path of a
sentinel fragment; after the fragment is processed the file is still that one
byte, not `FragmentSize` zero bytes. -/
theorem sentinel_fragment_keeps_existing_file :
    (⟨"zero", "m0"⟩ : FragmentInfo).Hash = sampleEnv.ZeroFileHash_8M ∧
    (fragmentBody sampleEnv "d" 2 ⟨"zero", "m0"⟩
      { initState (fsWrite emptyFS (Join "d" "zero") [7]) with
        fragmentpaths := ["", "", ""] }).state.fs (Join "d" "zero") = some [7] ∧
    (fragmentBody sampleEnv "d" 2 ⟨"zero", "m0"⟩
      { initState (fsWrite emptyFS (Join "d" "zero") [7]) with
        fragmentpaths := ["", "", ""] }).state.fs (Join "d" "zero")
      ≠ some (List.replicate sampleEnv.FragmentSize 0) := by
  decide

/-- C7, amended: for a fragment whose hash is the sentinel `ZeroFileHash_8M`
the loop body adds no miner query, address-book lookup or peer read to the
trace; a file that already exists at `savedir/<fragment hash>` is left as it
is, and when no file exists there and the create succeeds the path afterwards
holds exactly `FragmentSize` zero bytes. -/
theorem sentinel_fragment (env : Env) (savedir : String) (k : Nat) (fragment : FragmentInfo)
    (st : State) (hz : fragment.Hash = env.ZeroFileHash_8M) :
    (∃ suffix, (fragmentBody env savedir k fragment st).state.trace = st.trace ++ suffix ∧
      ∀ e ∈ suffix, e.isNetwork = false) ∧
    (∀ b, st.fs (Join savedir fragment.Hash) = some b →
      (fragmentBody env savedir k fragment st).state.fs (Join savedir fragment.Hash) = some b) ∧
    (k < st.fragmentpaths.length → st.fs (Join savedir fragment.Hash) = none →
      (∀ s, env.Create s (Join savedir fragment.Hash) = none) →
      (fragmentBody env savedir k fragment st).state.fs (Join savedir fragment.Hash)
        = some (List.replicate env.FragmentSize 0)) := by
  unfold fragmentBody
  simp only [hz, ne_eq, not_true_eq_false, if_false, State.log]
  by_cases hk : k < st.fragmentpaths.length
  · simp only [if_pos hk]
    cases hf : st.fs (Join savedir env.ZeroFileHash_8M) with
    | some b =>
      refine ⟨⟨[.Stat (Join savedir env.ZeroFileHash_8M)], ?_, ?_⟩, ?_, ?_⟩
      · simp [Ctl.state]
      · simp [Event.isNetwork]
      · intro b' hb'; simp [Ctl.state, hf, hb']
      · intro _ h; cases h
    | none =>
      simp only
      split
      · refine ⟨⟨[.Stat (Join savedir env.ZeroFileHash_8M),
          .Create (Join savedir env.ZeroFileHash_8M)], ?_, ?_⟩, ?_, ?_⟩
        · simp [Ctl.state]
        · simp [Event.isNetwork]
        · intro b' hb'; cases hb'
        · rename_i err hc
          intro _ _ hcr
          rw [hcr] at hc
          cases hc
      · refine ⟨⟨[.Stat (Join savedir env.ZeroFileHash_8M),
          .Create (Join savedir env.ZeroFileHash_8M),
          .Write (Join savedir env.ZeroFileHash_8M) (List.replicate env.FragmentSize 0),
          .Close (Join savedir env.ZeroFileHash_8M)], ?_, ?_⟩, ?_, ?_⟩
        · simp [Ctl.state, State.setFs]
        · simp [Event.isNetwork]
        · intro b' hb'; cases hb'
        · intro _ _ _
          simp [Ctl.state, State.setFs, fsAppend, fsWrite]
  · simp only [if_neg hk]
    refine ⟨⟨[], by simp [Ctl.state], by simp⟩, ?_, ?_⟩
    · intro b hb; simpa [Ctl.state] using hb
    · intro h; exact absurd h hk

theorem sentinel_fragment_witness :
    (fragmentBody sampleEnv "d" 2 ⟨"zero", "m0"⟩
      { initState emptyFS with fragmentpaths := ["", "", ""] }).state.fs (Join "d" "zero")
      = some [0, 0] :=
  (sentinel_fragment sampleEnv "d" 2 ⟨"zero", "m0"⟩
    { initState emptyFS with fragmentpaths := ["", "", ""] } rfl).2.2
    (by decide) (by decide) (fun _ => rfl)

/-- C8, counterexample: the first fragment of `f3` is not the sentinel and the
query for its miner `m_down` fails; `retrieve_file` returns that error at this
fragment and never goes on to the next fragment (miner `m2` is never queried). -/
theorem retrieve_file_returns_on_miner_query_failure :
    (retrieve_file sampleEnv ∅ emptyFS "f3" "d" "").st.fmeta = some sampleMeta3 ∧
    (retrieve_file sampleEnv ∅ emptyFS "f3" "d" "").out = .ret "" (some "miner not found") ∧
    Event.QueryMinerItems "m_down" ∈ (retrieve_file sampleEnv ∅ emptyFS "f3" "d" "").st.trace ∧
    Event.QueryMinerItems "m2" ∉ (retrieve_file sampleEnv ∅ emptyFS "f3" "d" "").st.trace := by
  refine ⟨rfl, ?_, ?_, ?_⟩ <;> decide

/-- C8, amended: for a non-sentinel fragment (within the `fragmentpaths`
slots), a failed miner query makes the loop body return that error, which
ends `retrieve_file`; when the miner query succeeds, a peer missing from the
address book is skipped with the file system untouched, and once the peer is
found the body always falls through to the next fragment, whether the
transport read succeeds or fails. -/
theorem fragment_failure_handling (env : Env) (savedir : String) (k : Nat)
    (fragment : FragmentInfo) (st : State) (hk : k < st.fragmentpaths.length)
    (hz : fragment.Hash ≠ env.ZeroFileHash_8M) :
    (∀ err, (∀ s, env.QueryMinerItems s fragment.Miner = .error err) →
      ∃ st1, fragmentBody env savedir k fragment st = .stop (.ret "" (some err)) st1 ∧
        st1.fs = st.fs) ∧
    (∀ miner, (∀ s, env.QueryMinerItems s fragment.Miner = .ok miner) →
      (∀ s, env.GetPeer s (env.Encode miner.PeerId) = none) →
      ∃ st1, fragmentBody env savedir k fragment st = .next st1 ∧ st1.fs = st.fs) ∧
    (∀ miner addr, (∀ s, env.QueryMinerItems s fragment.Miner = .ok miner) →
      (∀ s, env.GetPeer s (env.Encode miner.PeerId) = some addr) →
      ∃ st1, fragmentBody env savedir k fragment st = .next st1) := by
  refine ⟨?_, ?_, ?_⟩
  · intro err hq
    unfold fragmentBody
    simp only [if_pos hk, hz, ne_eq, not_false_eq_true, if_true, hq]
    exact ⟨_, rfl, rfl⟩
  · intro miner hq hp
    unfold fragmentBody
    simp only [if_pos hk, hz, ne_eq, not_false_eq_true, if_true, hq, hp]
    exact ⟨_, rfl, rfl⟩
  · intro miner addr hq hp
    unfold fragmentBody
    simp only [if_pos hk, hz, ne_eq, not_false_eq_true, if_true, hq, hp]
    split <;> exact ⟨_, rfl⟩

theorem fragment_failure_handling_witness :
    (∃ st1, fragmentBody sampleEnv "d" 0 ⟨"a1", "m_lost"⟩
      { initState emptyFS with fragmentpaths := ["", "", ""] } = .next st1 ∧
      st1.fs = emptyFS) ∧
    (∃ st1, fragmentBody sampleEnv "d" 1 ⟨"a2", "m_off"⟩
      { initState emptyFS with fragmentpaths := ["", "", ""] } = .next st1) :=
  ⟨(fragment_failure_handling sampleEnv "d" 0 ⟨"a1", "m_lost"⟩
      { initState emptyFS with fragmentpaths := ["", "", ""] } (by decide) (by decide)).2.1
      ⟨"m_lost"⟩ (fun _ => rfl) (fun _ => rfl),
   (fragment_failure_handling sampleEnv "d" 1 ⟨"a2", "m_off"⟩
      { initState emptyFS with fragmentpaths := ["", "", ""] } (by decide) (by decide)).2.2
      ⟨"m_off"⟩ ⟨"m_off", []⟩ (fun _ => rfl) (fun _ => rfl)⟩

/-! ## The track-file store (`node/node.go`) -/

theorem freshIndex_isSome (env : TrackEnv) (trackDir : String) (fs : FS) :
    ∀ (fuel i : Nat), (∃ j, j < fuel ∧ fs (Join trackDir (env.uuid (i + j))) = none) →
      (freshIndex env trackDir fs fuel i).isSome = true := by
  intro fuel
  induction fuel with
  | zero => rintro i ⟨j, hj, _⟩; omega
  | succ fuel ih =>
    rintro i ⟨j, hj, hfree⟩
    unfold freshIndex
    by_cases h0 : (fs (Join trackDir (env.uuid i))).isNone = true
    · simp [h0]
    · simp only [h0]
      cases j with
      | zero => exact absurd (by simpa using hfree) h0
      | succ j =>
        apply ih (i + 1)
        exact ⟨j, by omega, by rw [Nat.add_assoc, Nat.add_comm 1 j]; exact hfree⟩

/-- With a free name among the first `fuel` generated ones, `WriteTrackFile` returns. -/
theorem WriteTrackFile_returns (env : TrackEnv) (fuel : Nat) (trackDir : String) (fs : FS)
    (fid : String) (data : Bytes)
    (hfree : ∃ j, j < fuel ∧ fs (Join trackDir (env.uuid j)) = none) :
    (WriteTrackFile env fuel trackDir fs fid data).isSome = true := by
  have hi := freshIndex_isSome env trackDir fs fuel 0
    (by obtain ⟨j, hj, hf⟩ := hfree; exact ⟨j, hj, by simpa using hf⟩)
  unfold WriteTrackFile
  split
  · rfl
  · cases hfi : freshIndex env trackDir fs fuel 0 with
    | none => rw [hfi] at hi; cases hi
    | some i =>
      simp only
      split
      · rfl
      · split
        · rfl
        · split
          · rfl
          · split <;> rfl

/-- C10: for a key `k` of length `FileHashLen` (generated temporary names, being
UUID strings, never have that length), when `WriteTrackFile k data` returns
`nil` the file `trackDir/k` holds exactly `data`, a following
`ParseTrackFile k` parses exactly `data`, and the temporary file no longer
exists; the steps taken were create, complete write, sync and close of the
temporary file followed by its rename onto `trackDir/k`.  When the call
returns an error the file under `trackDir/k` is what it was before, so the
record changes only through that rename. -/
theorem WriteTrackFile_roundtrip (RecordInfo : Type) (env : TrackEnv) (fuel : Nat)
    (trackDir : String) (fs : FS) (k : String) (data : Bytes) (r : TrackResult)
    (Unmarshal : Bytes → Except Err RecordInfo)
    (hk : k.length = env.FileHashLen)
    (huuid : ∀ i, (env.uuid i).length ≠ env.FileHashLen)
    (hr : WriteTrackFile env fuel trackDir fs k data = some r) :
    (r.err = none →
      r.fs (Join trackDir k) = some data ∧
      ParseTrackFile RecordInfo Unmarshal trackDir r.fs k = Unmarshal data ∧
      r.fs r.fpath = none ∧
      ∃ stats, (∀ e ∈ stats, ∃ p, e = Event.Stat p) ∧
        r.trace = stats ++ [.Create r.fpath, .Write r.fpath data, .Sync r.fpath,
          .Close r.fpath, .Rename r.fpath (Join trackDir k), .Remove r.fpath]) ∧
    (r.err ≠ none → r.fs (Join trackDir k) = fs (Join trackDir k)) := by
  have hne : ∀ i, Join trackDir k ≠ Join trackDir (env.uuid i) := by
    intro i e
    have := Join_inj e
    exact huuid i (this ▸ hk)
  unfold WriteTrackFile at hr
  simp only [hk, ne_eq, not_true_eq_false, if_false] at hr
  cases hi : freshIndex env trackDir fs fuel 0 with
  | none => rw [hi] at hr; cases hr
  | some i =>
    rw [hi] at hr
    simp only at hr
    have hki := hne i
    cases hcr : env.Create fs (Join trackDir (env.uuid i)) with
    | some err =>
      rw [hcr] at hr
      cases hr
      simp
    | none =>
      rw [hcr] at hr
      simp only at hr
      cases hw : env.Write (fsWrite fs (Join trackDir (env.uuid i)) [])
          (Join trackDir (env.uuid i)) data with
      | some me =>
        rw [hw] at hr
        cases hr
        simp [fsRemove, fsWrite, hki]
      | none =>
        rw [hw] at hr
        simp only at hr
        cases hs : env.Sync (fsWrite (fsWrite fs (Join trackDir (env.uuid i)) [])
            (Join trackDir (env.uuid i)) data) (Join trackDir (env.uuid i)) with
        | some err =>
          rw [hs] at hr
          cases hr
          simp [fsRemove, fsWrite, hki]
        | none =>
          rw [hs] at hr
          simp only at hr
          cases hrn : env.Rename (fsWrite (fsWrite fs (Join trackDir (env.uuid i)) [])
              (Join trackDir (env.uuid i)) data) (Join trackDir (env.uuid i))
              (Join trackDir k) with
          | some err =>
            rw [hrn] at hr
            cases hr
            simp [fsRemove, fsWrite, hki]
          | none =>
            rw [hrn] at hr
            cases hr
            have hfs : fsRemove (fsRename (fsWrite (fsWrite fs (Join trackDir (env.uuid i)) [])
                (Join trackDir (env.uuid i)) data) (Join trackDir (env.uuid i))
                (Join trackDir k)) (Join trackDir (env.uuid i)) (Join trackDir k)
                = some data := by
              simp [fsRemove, fsRename, fsWrite, hki, Ne.symm hki]
            refine ⟨fun _ => ⟨hfs, ?_, ?_, ?_⟩, fun h => absurd rfl h⟩
            · simp only [ParseTrackFile, hfs]
            · simp [fsRemove]
            · exact ⟨_, by simp, rfl⟩

theorem WriteTrackFile_roundtrip_witness :
    ∃ r, WriteTrackFile sampleTrackEnv 5 "t" sampleTrackFS "abcd" [4, 2] = some r ∧
      r.err = none ∧ r.fpath = Join "t" "tmp-1" ∧
      r.fs (Join "t" "abcd") = some [4, 2] ∧ r.fs (Join "t" "tmp-1") = none := by
  have hsome : (WriteTrackFile sampleTrackEnv 5 "t" sampleTrackFS "abcd" [4, 2]).isSome
      = true := by decide
  have herr : (WriteTrackFile sampleTrackEnv 5 "t" sampleTrackFS "abcd" [4, 2]).map
      (fun r => r.err) = some none := by decide
  have hpath : (WriteTrackFile sampleTrackEnv 5 "t" sampleTrackFS "abcd" [4, 2]).map
      (fun r => r.fpath) = some (Join "t" "tmp-1") := by decide
  cases hr : WriteTrackFile sampleTrackEnv 5 "t" sampleTrackFS "abcd" [4, 2] with
  | none => rw [hr] at hsome; cases hsome
  | some r =>
    rw [hr] at herr hpath
    have he : r.err = none := by simpa using herr
    have hp : r.fpath = Join "t" "tmp-1" := by simpa using hpath
    have h := (WriteTrackFile_roundtrip Bytes sampleTrackEnv 5 "t" sampleTrackFS
      "abcd" [4, 2] r Except.ok (by decide)
      (by intro i; by_cases h0 : i = 0 <;> simp [sampleTrackEnv, h0] <;> decide) hr).1 he
    exact ⟨r, rfl, he, hp, h.1, hp ▸ h.2.2.1⟩

end DeOSS
